import Mathlib

/-!
Verification of the tile-merging tool `merger.py`.

The development shallowly embeds the program's core: filename-coordinate
parsing, natural-sort grouping (`group_images`), dimension reconciliation and
padding (`pad_image`), and composition (`merge`), together with the output-name
derivation performed in `main`.  Strings are modelled as lists of characters
with the exact Python string operations used by the source (`str.replace`
replaces every occurrence, `str.split` keeps empty fields, negative indexing
checks length).  Pixel buffers are lists of rows; a decoded raster carries its
width explicitly, mirroring a numpy array's shape.  Fallible steps (Python
IndexError / ValueError, numpy stacking errors) are modelled with
`Except String`.
-/

/-- Python strings, modelled as lists of characters. -/
abbrev Str := List Char

/-- Value of a string of decimal digits. -/
def natOfDigits (s : Str) : Nat := s.foldl (fun a c => a * 10 + (c.toNat - 48)) 0

/-- Model of Python `int(s)` as used on the digit-only coordinate fields of
tile filenames: succeeds exactly on nonempty all-digit strings (the only shape
the naming convention produces; the sign/whitespace forms accepted by `int`
never occur here). -/
def parseNat (s : Str) : Except String Nat :=
  if s ≠ [] ∧ s.all Char.isDigit then .ok (natOfDigits s)
  else .error "ValueError: invalid literal for int"

/-- Boolean prefix test on character lists. -/
def isPrefixList : Str → Str → Bool
  | [], _ => true
  | _ :: _, [] => false
  | a :: as, b :: bs => a == b && isPrefixList as bs

/-- Model of Python `s.endswith(suffix)`. -/
def endsWithList (suffix s : Str) : Bool := isPrefixList suffix.reverse s.reverse

/-- Model of Python `s.split(sep)` for a one-character separator: splits at
every occurrence and keeps empty fields, so the result is always nonempty. -/
def splitOnChar (sep : Char) : Str → List Str
  | [] => [[]]
  | c :: s =>
    if c = sep then [] :: splitOnChar sep s
    else
      match splitOnChar sep s with
      | [] => [[c]]
      | g :: gs => (c :: g) :: gs

/-- Fuel-driven worker for `replaceAll`; the fuel is always instantiated with
the length of the scanned string, which bounds the number of steps. -/
def replaceAllF (pat rep : Str) : Nat → Str → Str
  | _, [] => []
  | 0, s => s
  | Nat.succ fuel, c :: s =>
    if isPrefixList pat (c :: s) && !pat.isEmpty then
      rep ++ replaceAllF pat rep fuel ((c :: s).drop pat.length)
    else
      c :: replaceAllF pat rep fuel s

/-- Model of Python `s.replace(pat, rep)`: replaces every non-overlapping
occurrence of `pat`, scanning left to right.  The program only ever calls it
with a nonempty pattern (a dot followed by an extension, or a regex match). -/
def replaceAll (pat rep s : Str) : Str := replaceAllF pat rep s.length s

/-- Model of `os.path.basename`: the part of the path after the last slash. -/
def basenameStr (p : Str) : Str := (splitOnChar '/' p).getLastD []

/-- Python `parts[-2]` on a list of strings: the second field from the end,
an IndexError when fewer than two fields exist. -/
def idxFromEnd2 (parts : List Str) : Except String Str :=
  match parts.reverse with
  | _ :: x :: _ => .ok x
  | _ => .error "IndexError: list index out of range"

/-- Row coordinate of a tile path as computed inside `group_images` (source
lines 92-93): strip every occurrence of `"." + image_ext`, split on
underscores, take the second field from the end and convert it to an int. -/
def coordYName (ext image : Str) : Except String Nat := do
  let noExt := replaceAll ('.' :: ext) [] image
  let f ← idxFromEnd2 (splitOnChar '_' noExt)
  parseNat f

/-! Natural sorting, modelling `natsort.natsorted`: each string is keyed by
its alternating runs of non-digit and digit characters, digit runs comparing
by numeric value; ties keep the input order (Python's sort is stable, and so
is the insertion sort used here, which places a new element after all
existing elements with keys not greater than its own). -/

/-- One chunk of a natural-sort key: a run of non-digit characters or the
numeric value of a run of digits. -/
inductive NTok : Type
  | s (cs : Str)
  | n (v : Nat)
deriving DecidableEq

/-- Code-point lexicographic strict order on character lists. -/
def strLt : Str → Str → Bool
  | [], [] => false
  | [], _ :: _ => true
  | _ :: _, [] => false
  | a :: as, b :: bs =>
    if a.toNat < b.toNat then true
    else if b.toNat < a.toNat then false
    else strLt as bs

/-- Strict order on key chunks; text chunks compare lexicographically, number
chunks numerically.  Keys always alternate starting with a (possibly empty)
text chunk, so mixed comparisons never arise; they are given a fixed value. -/
def tokLt : NTok → NTok → Bool
  | .s a, .s b => strLt a b
  | .n a, .n b => Nat.blt a b
  | .s _, .n _ => true
  | .n _, .s _ => false

/-- Lexicographic strict order on chunk lists, a proper prefix sorting
first. -/
def tokListLt : List NTok → List NTok → Bool
  | [], [] => false
  | [], _ :: _ => true
  | _ :: _, [] => false
  | a :: as, b :: bs =>
    if tokLt a b then true
    else if tokLt b a then false
    else tokListLt as bs

/-- Fuel-driven tokenizer producing the natural-sort key of a string; the
fuel is always instantiated with the string length. -/
def tokenizeF : Nat → Str → List NTok
  | _, [] => [.s []]
  | 0, s => [.s s]
  | Nat.succ fuel, l =>
    let t := l.takeWhile (fun c => !c.isDigit)
    let r := l.dropWhile (fun c => !c.isDigit)
    match r with
    | [] => [.s t]
    | _ :: _ =>
      let d := r.takeWhile Char.isDigit
      let r2 := r.dropWhile Char.isDigit
      .s t :: .n (natOfDigits d) :: tokenizeF fuel r2

/-- Natural-sort key of a string. -/
def natKeyOf (s : Str) : List NTok := tokenizeF s.length s

/-- Natural-sort strict order on strings. -/
def natLt (a b : Str) : Bool := tokListLt (natKeyOf a) (natKeyOf b)

/-- Stable insertion: the new element goes after every existing element whose
key is not greater. -/
def insertNat (x : Str) : List Str → List Str
  | [] => [x]
  | y :: ys => if natLt x y then x :: y :: ys else y :: insertNat x ys

/-- Model of `natsorted`: a stable sort by natural-sort key. -/
def natsorted (l : List Str) : List Str := l.foldl (fun acc x => insertNat x acc) []

/-- Append `x` to the list at position `i`, an IndexError when `i` is out of
range, modelling Python `grouped_images[group_index].append(x)` (the
`os.path.join` applied to the single argument `x` there is the identity). -/
def appendAt : List (List Str) → Nat → Str → Except String (List (List Str))
  | [], _, _ => .error "IndexError: list index out of range"
  | g :: gs, 0, x => .ok ((g ++ [x]) :: gs)
  | g :: gs, Nat.succ i, x => (appendAt gs i x).map (fun r => g :: r)

/-- One step of the grouping loop of `group_images` (source lines 90-99).
The state is `(last_y, group_index, grouped_images)`. -/
def gStep (ext : Str) (st : Nat × Nat × List (List Str)) (image : Str) :
    Except String (Nat × Nat × List (List Str)) :=
  if endsWithList ext image then do
    let y ← coordYName ext image
    if y = st.1 then do
      let gs ← appendAt st.2.2 st.2.1 image
      pure (st.1, st.2.1, gs)
    else
      pure (y, st.2.1 + 1, st.2.2 ++ [[image]])
  else
    pure st

/-- Model of `group_images` (source lines 85-101): natural-sort the paths,
then fold the grouping step over them starting from `last_y = 0`,
`group_index = 0` and one empty group. -/
def groupImages (images : List Str) (ext : Str) : Except String (List (List Str)) := do
  let st ← (natsorted images).foldlM (gStep ext) (0, 0, [[]])
  pure st.2.2

/-- Append to the last group of a group list (used by the specification-side
description of grouping, which has no explicit group index). -/
def appendLastG : List (List Str) → Str → List (List Str)
  | [], x => [[x]]
  | [g], x => [g ++ [x]]
  | g :: gs, x => g :: appendLastG gs x

/-- Modelled from the spec (section 4.2): one grouping step tracking only the
previous row coordinate; a tile with the tracked row is appended to the
current (last) row-group, otherwise a new row-group is started. -/
def specGroupStep (rowOf : Str → Nat) (st : Nat × List (List Str)) (x : Str) :
    Nat × List (List Str) :=
  if rowOf x = st.1 then (st.1, appendLastG st.2 x)
  else (rowOf x, st.2 ++ [[x]])

/-- Modelled from the spec (section 4.2): sort the paths in natural order and
partition them by the running previous-row value, initialized to 0. -/
def specGroup (rowOf : Str → Nat) (images : List Str) : List (List Str) :=
  ((natsorted images).foldl (specGroupStep rowOf) (0, [[]])).2

/-! The regex scan of `main` (source line 158): all non-overlapping matches of
the pattern `_[0-9]+_[0-9]+.<ext>` (where `.` matches any character), scanning
left to right with greedy, backtracking digit runs. -/

/-- Try to match `[0-9]{k}` (for the largest `k` not above the given bound,
then smaller), followed by one arbitrary character and the literal extension,
at the front of `s2`; returns the number of characters consumed. -/
def tryDigitsDotExt (ext s2 : Str) : Nat → Option Nat
  | 0 => none
  | Nat.succ k =>
    match s2.drop (k + 1) with
    | _ :: rest =>
      if isPrefixList ext rest then some ((k + 1) + 1 + ext.length)
      else tryDigitsDotExt ext s2 k
    | [] => tryDigitsDotExt ext s2 k

/-- Length of a match of `_[0-9]+_[0-9]+.<ext>` at the front of `s`, if
any.  The first digit run is deterministic (greedy digits followed by a
literal underscore); the second backtracks from its greedy length. -/
def matchLen (ext : Str) : Str → Option Nat
  | [] => none
  | c :: s1 =>
    if c = '_' then
      if (s1.takeWhile Char.isDigit).isEmpty then none
      else
        match s1.drop (s1.takeWhile Char.isDigit).length with
        | c2 :: s2 =>
          if c2 = '_' then
            match tryDigitsDotExt ext s2 (s2.takeWhile Char.isDigit).length with
            | some m => some (1 + (s1.takeWhile Char.isDigit).length + 1 + m)
            | none => none
          else none
        | [] => none
    else none

/-- Fuel-driven worker for `findall`; the fuel is always instantiated with
the length of the scanned string. -/
def findallF (ext : Str) : Nat → Str → List Str
  | _, [] => []
  | 0, _ => []
  | Nat.succ fuel, c :: s =>
    match matchLen ext (c :: s) with
    | some n => (c :: s).take n :: findallF ext fuel ((c :: s).drop n)
    | none => findallF ext fuel s

/-- Model of `re.findall("_[0-9]+_[0-9]+." + ext, s)`: the non-overlapping
matches in scan order. -/
def findall (ext s : Str) : List Str := findallF ext s.length s

/-- Output-name derivation of `main` (source lines 156-159 and 170): take the
extension after the last dot of the first path, find the last regex match of
`_<row>_<col>.<ext>` in that path, strip it from the path's basename, and
append `_merged.<ext>`. -/
def deriveName (paths : List Str) : Except String Str :=
  match paths with
  | [] => .error "IndexError: list index out of range"
  | p0 :: _ =>
    match (findall ((splitOnChar '.' p0).getLastD []) p0).getLast? with
    | none => .error "IndexError: list index out of range"
    | some m =>
      .ok (replaceAll m [] (basenameStr p0) ++ ("_merged.").data
        ++ (splitOnChar '.' p0).getLastD [])

/-! The image model.  A raster is a list of pixel rows together with its
width, mirroring a numpy array's shape `(height, width)`; the pixel type is
abstract (it stands for a grey value or an RGB triple). -/

/-- A decoded raster: its width and its list of pixel rows. -/
structure Img (α : Type) where
  width : Nat
  data : List (List α)
deriving DecidableEq

/-- Height of a raster: its number of rows. -/
def Img.height {α : Type} (i : Img α) : Nat := i.data.length

/-- Well-formedness of a raster: every row has the declared width. -/
def Img.Rect {α : Type} (i : Img α) : Prop := ∀ row ∈ i.data, row.length = i.width

/-- An image as handed out by `PIL.Image.open`: the raster plus the metadata
the program reads back from the handle, `filename` (the path it was opened
from) and `format` (the decoder name, e.g. `PNG`). -/
structure PImage (α : Type) where
  filename : Str
  format : Str
  width : Nat
  data : List (List α)
deriving DecidableEq

/-- Height of an opened image. -/
def PImage.height {α : Type} (t : PImage α) : Nat := t.data.length

/-- The raster of an opened image. -/
def PImage.toImg {α : Type} (t : PImage α) : Img α := ⟨t.width, t.data⟩

/-- Model of `PIL.ImageOps.expand(image, (left, top, right, bottom), fill)`:
a new raster of size `(w+left+right) x (h+top+bottom)` filled with `fill`,
with the original pasted at offset `(left, top)`. -/
def expand {α : Type} (fill : α) (img : Img α) (pl pt pr pb : Nat) : Img α :=
  ⟨img.width + pl + pr,
    List.replicate pt (List.replicate (pl + img.width + pr) fill)
      ++ img.data.map (fun row => List.replicate pl fill ++ row ++ List.replicate pr fill)
      ++ List.replicate pb (List.replicate (pl + img.width + pr) fill)⟩

/-- Row coordinate of an opened image as computed in `pad_image` and in the
reconciliation loop of `merge` (source lines 107-108 and 131-132): strip every
occurrence of `"." + image.format` from the basename of `image.filename`,
split on underscores, take the second field from the end, convert to int. -/
def tileCoord {α : Type} (t : PImage α) : Except String Nat := do
  let noExt := replaceAll ('.' :: t.format) [] (basenameStr t.filename)
  let f ← idxFromEnd2 (splitOnChar '_' noExt)
  parseNat f

/-- Python list read `l[k]` for a nonnegative index: IndexError out of
range. -/
def nthE (l : List Nat) (k : Nat) : Except String Nat :=
  match l[k]? with
  | some v => .ok v
  | none => .error "IndexError: list index out of range"

/-- Model of `pad_image` (source lines 104-118): look up the target height
and the target width at the tile's parsed row coordinate, split each padding
remainder so the odd pixel goes to the bottom and to the right, and expand
with black fill.  A negative padding (a target smaller than the tile) is
undefined in the source by design (PIL pastes at negative offsets); it is
modelled as an error. -/
def padImage {α : Type} (black : α) (t : PImage α) (maxHeights maxWidths : List Nat) :
    Except String (Img α) := do
  let k ← tileCoord t
  let targetHeight ← nthE maxHeights k
  let targetWidth ← nthE maxWidths k
  let paddingHeight : Int := (targetHeight : Int) - (t.height : Int)
  let paddingWidth : Int := (targetWidth : Int) - (t.width : Int)
  if paddingHeight < 0 ∨ paddingWidth < 0 then
    .error "undefined: negative padding"
  else
    let padTop := paddingHeight.toNat / 2
    let padBottom := paddingHeight.toNat - padTop
    let padLeft := paddingWidth.toNat / 2
    let padRight := paddingWidth.toNat - padLeft
    .ok (expand black t.toImg padLeft padTop padRight padBottom)

/-- One step of the dimension-reconciliation loop of `merge` (source lines
128-134) for the tile of a group with enumeration index `i`: update the
max-height table at the tile's parsed row coordinate, then the max-width
table at `i`.  Both reads are Python list reads. -/
def tStep {α : Type} (i : Nat) (st : List Nat × List Nat) (t : PImage α) :
    Except String (List Nat × List Nat) := do
  let k ← tileCoord t
  let hk ← nthE st.1 k
  let mh := st.1.set k (max hk t.height)
  let wi ← nthE st.2 i
  let mw := st.2.set i (max wi t.width)
  pure (mh, mw)

/-- The dimension-reconciliation pass of `merge` (source lines 123-134): both
tables start as zero lists of length `len(grouped_images)` and are filled in
one pass over all tiles of all groups. -/
def computeTables {α : Type} (grouped : List (List (PImage α))) :
    Except String (List Nat × List Nat) :=
  (List.enumFrom 0 grouped).foldlM (fun st ig => ig.2.foldlM (tStep ig.1) st)
    (List.replicate grouped.length 0, List.replicate grouped.length 0)

/-- Horizontal concatenation of two rasters of equal height. -/
def hcat2 {α : Type} (a b : Img α) : Img α :=
  ⟨a.width + b.width, List.zipWith (fun r s => r ++ s) a.data b.data⟩

/-- Model of `np.hstack` on a list of rasters: an error on an empty list or on
mismatched heights, otherwise the left-to-right concatenation. -/
def hstackI {α : Type} (imgs : List (Img α)) : Except String (Img α) :=
  match imgs with
  | [] => .error "ValueError: need at least one array to concatenate"
  | i0 :: rest =>
    if rest.all (fun im => im.height == i0.height) then .ok (rest.foldl hcat2 i0)
    else .error "ValueError: hstack dimension mismatch"

/-- Model of `np.vstack` on a list of rasters: an error on an empty list or on
mismatched widths, otherwise the top-to-bottom concatenation. -/
def vstackI {α : Type} (imgs : List (Img α)) : Except String (Img α) :=
  match imgs with
  | [] => .error "ValueError: need at least one array to concatenate"
  | i0 :: rest =>
    if rest.all (fun im => im.width == i0.width) then
      .ok ⟨i0.width, (imgs.map Img.data).flatten⟩
    else .error "ValueError: vstack dimension mismatch"

/-- The row-strip of one group (source lines 136-140): pad every tile of the
group, then stack the padded tiles horizontally. -/
def stripFor {α : Type} (black : α) (maxHeights maxWidths : List Nat)
    (group : List (PImage α)) : Except String (Img α) := do
  let padded ← group.mapM (fun t => padImage black t maxHeights maxWidths)
  hstackI padded

/-- All row-strips, in group order. -/
def stripsOf {α : Type} (black : α) (grouped : List (List (PImage α)))
    (maxHeights maxWidths : List Nat) : Except String (List (Img α)) :=
  grouped.mapM (stripFor black maxHeights maxWidths)

/-- Model of `merge` (source lines 121-145): reconcile dimensions, build the
row-strips, then stack them vertically. -/
def mergeP {α : Type} (black : α) (grouped : List (List (PImage α))) :
    Except String (Img α) := do
  let tabs ← computeTables grouped
  let strips ← stripsOf black grouped tabs.1 tabs.2
  vstackI strips

/-- The per-tile-set pipeline of `main` (source lines 161-162) from a list of
tile paths: group the paths, open every path (`opener` models `Image.open`),
and merge. -/
def mergeFromNames {α : Type} (black : α) (opener : Str → PImage α)
    (names : List Str) (ext : Str) : Except String (Img α) := do
  let grouped ← groupImages names ext
  mergeP black (grouped.map (fun g => g.map opener))

/-- Crop of a raster, modelling `PIL.Image.crop` / numpy slicing: the `h`
rows starting at `y`, each restricted to the `w` pixels starting at `x`. -/
def cropData {α : Type} (img : Img α) (x y w h : Nat) : List (List α) :=
  ((img.data.drop y).take h).map (fun row => (row.drop x).take w)

/-- Maximum of a list of naturals, 0 for the empty list. -/
def natMaxL (l : List Nat) : Nat := l.foldr max 0

/-- The tiles of a tile list whose assigned row coordinate is `k`. -/
def tilesOfRow {α : Type} (cf : PImage α → Nat) (k : Nat) (ts : List (PImage α)) :
    List (PImage α) := ts.filter (fun t => cf t == k)

/-- Decidable equality of `Except` values, for evaluating the pipeline on
concrete inputs. -/
instance {ε α : Type} [DecidableEq ε] [DecidableEq α] : DecidableEq (Except ε α)
  | .ok a, .ok b =>
    if h : a = b then .isTrue (by rw [h]) else .isFalse (by intro hh; cases hh; exact h rfl)
  | .error a, .error b =>
    if h : a = b then .isTrue (by rw [h]) else .isFalse (by intro hh; cases hh; exact h rfl)
  | .ok _, .error _ => .isFalse (by intro hh; cases hh)
  | .error _, .ok _ => .isFalse (by intro hh; cases hh)

/-! Concrete inputs used by witnesses and counterexamples. -/

/-- The six tile names of the natural-sort grouping example, in scrambled
input order. -/
def sixScrambled : List Str :=
  ["im_1_1.png".data, "im_0_2.png".data, "im_1_0.png".data,
   "im_0_0.png".data, "im_1_2.png".data, "im_0_1.png".data]

/-- Row coordinate assignment by parsing a `.png` tile name. -/
def rowByName (s : Str) : Nat := ((coordYName ("png").data s).toOption).getD 0

/-- Row coordinate assignment by parsing an opened image's metadata. -/
def coordAssign (t : PImage Nat) : Nat := ((tileCoord t).toOption).getD 0

/-- A 7x1 tile of row 0 (tile set `a`). -/
def cexTileA : PImage Nat := ⟨"a_0_0.png".data, "PNG".data, 7, [[1, 1, 1, 1, 1, 1, 1]]⟩

/-- A 7x1 tile of row 1 (tile set `a`). -/
def cexTileB : PImage Nat := ⟨"a_1_0.png".data, "PNG".data, 7, [[2, 2, 2, 2, 2, 2, 2]]⟩

/-- A 5x1 tile of row 0 (tile set `b`); grouped after the others it lands in
group index 2 while its parsed row coordinate is 0. -/
def cexTileC : PImage Nat := ⟨"b_0_0.png".data, "PNG".data, 5, [[3, 3, 3, 3, 3]]⟩

/-- A grouped tile list (as `group_images` produces for the natural order of
the three names above) in which the third group's tile has row coordinate
0. -/
def cexGrouped : List (List (PImage Nat)) := [[cexTileA], [cexTileB], [cexTileC]]

/-- Uniform 2x1 tiles for the small concrete grids. -/
def uT00 : PImage Nat := ⟨"im_0_0.png".data, "PNG".data, 2, [[1, 1]]⟩

/-- Second tile of row 0. -/
def uT01 : PImage Nat := ⟨"im_0_1.png".data, "PNG".data, 2, [[2, 2]]⟩

/-- First tile of row 1. -/
def uT10 : PImage Nat := ⟨"im_1_0.png".data, "PNG".data, 2, [[3, 3]]⟩

/-- Second tile of row 1. -/
def uT11 : PImage Nat := ⟨"im_1_1.png".data, "PNG".data, 2, [[4, 4]]⟩

/-- A uniform 2x2 grid of 2x1 tiles. -/
def uniGrouped : List (List (PImage Nat)) := [[uT00, uT01], [uT10, uT11]]

/-- A ragged grid: two tiles in row 0, one in row 1. -/
def raggedGrouped : List (List (PImage Nat)) := [[uT00, uT01], [uT10]]

/-- Tile names whose smallest row coordinate is 1. -/
def rowsOneNames : List Str := ["im_1_0.png".data, "im_1_1.png".data]

/-- An opener (model of `Image.open`) serving a 2x1 tile for any path. -/
def rowsOneOpener : Str → PImage Nat := fun s => ⟨s, "PNG".data, 2, [[1, 1]]⟩

/-! General helper lemmas about list reads, maxima and appends. -/

theorem get?_lt_isSome (l : List Nat) (k : Nat) (h : k < l.length) : ∃ v, l[k]? = some v := by
  induction l generalizing k with
  | nil => simp at h
  | cons a l ih =>
    cases k with
    | zero => exact ⟨a, by simp⟩
    | succ k => simpa using ih k (by simpa using h)

theorem get?_set_self (l : List Nat) (k v : Nat) (h : k < l.length) :
    (l.set k v)[k]? = some v := by
  induction l generalizing k with
  | nil => simp at h
  | cons a l ih =>
    cases k with
    | zero => simp
    | succ k => simpa using ih k (by simpa using h)

theorem get?_set_ne (l : List Nat) (k j v : Nat) (h : j ≠ k) :
    (l.set k v)[j]? = l[j]? := by
  induction l generalizing k j with
  | nil => rfl
  | cons a l ih =>
    cases k with
    | zero => cases j with
      | zero => exact absurd rfl h
      | succ j => simp
    | succ k => cases j with
      | zero => simp
      | succ j => simpa using ih k j (fun hh => h (by rw [hh]))

theorem get?_replicate_zero (n k : Nat) : ((List.replicate n (0 : Nat))[k]?).getD 0 = 0 := by
  induction n generalizing k with
  | zero => rfl
  | succ n ih =>
    cases k with
    | zero => simp [List.replicate]
    | succ k =>
      rw [List.replicate]
      show (((0 : Nat) :: List.replicate n 0)[k + 1]?).getD 0 = 0
      rw [List.getElem?_cons_succ]
      exact ih k

theorem nthE_eq_of_lt (l : List Nat) (k : Nat) (h : k < l.length) :
    nthE l k = .ok (l[k]?.getD 0) := by
  obtain ⟨v, hv⟩ := get?_lt_isSome l k h
  simp [nthE, hv]

theorem natMaxL_cons (x : Nat) (l : List Nat) : natMaxL (x :: l) = max x (natMaxL l) := rfl

theorem natMaxL_append (a b : List Nat) : natMaxL (a ++ b) = max (natMaxL a) (natMaxL b) := by
  induction a with
  | nil => simp [natMaxL]
  | cons x a ih => simp [natMaxL_cons, ih, Nat.max_assoc]

theorem natMaxL_ge_of_mem (x : Nat) (l : List Nat) (h : x ∈ l) : x ≤ natMaxL l := by
  induction l with
  | nil => simp at h
  | cons a l ih =>
    rcases List.mem_cons.mp h with h | h
    · rw [h, natMaxL_cons]; exact Nat.le_max_left _ _
    · exact Nat.le_trans (ih h) (by rw [natMaxL_cons]; exact Nat.le_max_right _ _)

theorem natMaxL_allEq (l : List Nat) (v : Nat) (hne : l ≠ []) (h : ∀ x ∈ l, x = v) :
    natMaxL l = v := by
  induction l with
  | nil => exact absurd rfl hne
  | cons a l ih =>
    rcases l with _ | ⟨b, l⟩
    · simp [natMaxL, h a (by simp)]
    · rw [natMaxL_cons, ih (by simp) (fun x hx => h x (List.mem_cons_of_mem a hx)),
        h a (by simp)]
      exact Nat.max_self v

theorem dropLenAppend {α : Type} (a b : List α) (n : Nat) (h : a.length = n) :
    (a ++ b).drop n = b := by
  induction a generalizing n with
  | nil => simp at h; rw [← h]; rfl
  | cons x a ih =>
    cases n with
    | zero => simp at h
    | succ n => simpa using ih n (by simpa using h)

theorem takeLenAppend {α : Type} (a b : List α) (n : Nat) (h : a.length = n) :
    (a ++ b).take n = a := by
  induction a generalizing n with
  | nil => simp at h; rw [← h]; rfl
  | cons x a ih =>
    cases n with
    | zero => simp at h
    | succ n => simpa using ih n (by simpa using h)

/-! Unfolding lemmas for `padImage` and `expand`. -/

theorem expand_width {α : Type} (fill : α) (i : Img α) (pl pt pr pb : Nat) :
    (expand fill i pl pt pr pb).width = i.width + pl + pr := rfl

theorem expand_height {α : Type} (fill : α) (i : Img α) (pl pt pr pb : Nat) :
    (expand fill i pl pt pr pb).height = pt + i.height + pb := by
  simp [expand, Img.height]; omega

/-- Success-path unfolding of `pad_image`: when the parsed coordinate and both
table reads succeed and the paddings are nonnegative, the result is `expand`
with the split borders of the source. -/
theorem padImage_ok_eq {α : Type} (black : α) (t : PImage α) (mh mw : List Nat)
    (k th tw : Nat) (hk : tileCoord t = .ok k) (hh : mh[k]? = some th)
    (hw : mw[k]? = some tw) (h1 : t.height ≤ th) (h2 : t.width ≤ tw) :
    padImage black t mh mw = .ok (expand black t.toImg
      ((tw - t.width) / 2) ((th - t.height) / 2)
      (tw - t.width - (tw - t.width) / 2) (th - t.height - (th - t.height) / 2)) := by
  rw [padImage, hk]
  show (nthE mh k).bind _ = _
  rw [nthE, hh]
  show (nthE mw k).bind _ = _
  rw [nthE, hw]
  show (if ((th : Int) - (t.height : Int) < 0 ∨ (tw : Int) - (t.width : Int) < 0) then _ else _) = _
  rw [if_neg (by omega)]
  have hth : ((th : Int) - (t.height : Int)).toNat = th - t.height := by omega
  have htw : ((tw : Int) - (t.width : Int)).toNat = tw - t.width := by omega
  rw [hth, htw]

/-! Claim C9. -/

/-- C9: for an empty input collection, `group_images` returns exactly one row
group, and that row group is empty. -/
theorem claim_C9_empty_grouping (ext : Str) : groupImages [] ext = .ok [[]] := rfl

/-! Claim C2. -/

/-- C2: for every tile and target dimensions, `pad_image` splits the padding
so an odd remainder goes to the bottom and to the right — the borders passed
to `expand` are `pad_left = padding_width / 2`,
`pad_right = padding_width - pad_left`, `pad_top = padding_height / 2`,
`pad_bottom = padding_height - pad_top` — with the fixed black background
fill; in particular (see the witness) a tile of width 10 padded to width 13
gets left padding 1 and right padding 2. -/
theorem claim_C2_pad_split {α : Type} (black : α) (t : PImage α) (mh mw : List Nat)
    (k th tw : Nat) (hk : tileCoord t = .ok k) (hh : mh[k]? = some th)
    (hw : mw[k]? = some tw) (h1 : t.height ≤ th) (h2 : t.width ≤ tw) :
    padImage black t mh mw = .ok (expand black t.toImg
      ((tw - t.width) / 2) ((th - t.height) / 2)
      (tw - t.width - (tw - t.width) / 2) (th - t.height - (th - t.height) / 2)) :=
  padImage_ok_eq black t mh mw k th tw hk hh hw h1 h2

/-- Witness for C2: a 10-wide tile padded to width 13 gets left border 1 and
right border 2 (and an 1-high tile padded to height 1 gets none). -/
theorem claim_C2_pad_split_witness :
    padImage (0 : Nat) ⟨"t_0_0.png".data, "PNG".data, 10, [List.replicate 10 5]⟩ [1] [13]
      = .ok (expand 0 (⟨10, [List.replicate 10 5]⟩ : Img Nat) 1 0 2 0) :=
  claim_C2_pad_split 0 ⟨"t_0_0.png".data, "PNG".data, 10, [List.replicate 10 5]⟩ [1] [13]
    0 1 13 (by decide) (by decide) (by decide) (by decide) (by decide)

/-! Claim C5 (corrected). -/

/-- Counterexample to C5 as stated: in the grouped tile set `cexGrouped`
(which `group_images` produces from the three names below), the third group's
tile `cexTileC` has parsed row coordinate 0, so `pad_image` pads it to the
width-table entry of index 0 (7) — not to its own group's target width
(`natMaxL` of group 2's widths, which is 5) — although both looked-up target
dimensions are at least the tile's own. -/
theorem claim_C5_counterexample :
    groupImages ["a_0_0.png".data, "a_1_0.png".data, "b_0_0.png".data] ("png").data
      = .ok [["a_0_0.png".data], ["a_1_0.png".data], ["b_0_0.png".data]] ∧
    computeTables cexGrouped = .ok ([1, 1, 0], [7, 7, 5]) ∧
    (∃ p, padImage (0 : Nat) cexTileC [1, 1, 0] [7, 7, 5] = .ok p ∧
      cexTileC.height ≤ 1 ∧ cexTileC.width ≤ 7 ∧
      p.width ≠ natMaxL ((cexGrouped.getD 2 []).map PImage.width)) :=
  ⟨by decide, by decide,
    ⟨⟨7, [[0, 3, 3, 3, 3, 3, 0]]⟩, by decide, by decide, by decide, by decide⟩⟩

/-- C5 amended: the padded tile's height equals the height-table entry at its
parsed row coordinate (the row's target height) and its width equals the
width-table entry at that same row coordinate — which is the row-group's
target width exactly when the group's enumeration index equals the row
coordinate. -/
theorem claim_C5_pad_dims {α : Type} (black : α) (t : PImage α) (mh mw : List Nat)
    (k th tw : Nat) (hk : tileCoord t = .ok k) (hh : mh[k]? = some th)
    (hw : mw[k]? = some tw) (h1 : t.height ≤ th) (h2 : t.width ≤ tw) :
    ∃ p, padImage black t mh mw = .ok p ∧ p.height = th ∧ p.width = tw := by
  refine ⟨_, padImage_ok_eq black t mh mw k th tw hk hh hw h1 h2, ?_, ?_⟩
  · rw [expand_height]
    have hteq : t.toImg.height = t.height := rfl
    rw [hteq]
    omega
  · rw [expand_width]
    show t.width + (tw - t.width) / 2 + (tw - t.width - (tw - t.width) / 2) = tw
    omega

/-- Witness for C5: the padded dimensions of a concrete 2x1 tile at row 0
with targets 3 and 4. -/
theorem claim_C5_pad_dims_witness :
    ∃ p, padImage (0 : Nat) uT00 [3] [4] = .ok p ∧ p.height = 3 ∧ p.width = 4 :=
  claim_C5_pad_dims 0 uT00 [3] [4] 0 3 4 (by decide) (by decide) (by decide)
    (by decide) (by decide)

/-! Claim C3. -/

/-- Cropping an expanded raster back at the border offset with the original
size recovers the original rows. -/
theorem cropData_expand {α : Type} (fill : α) (i : Img α) (pl pt pr pb : Nat)
    (hrect : ∀ row ∈ i.data, row.length = i.width) :
    cropData (expand fill i pl pt pr pb) pl pt i.width i.height = i.data := by
  unfold cropData expand
  show ((((List.replicate pt (List.replicate (pl + i.width + pr) fill)
      ++ i.data.map (fun row => List.replicate pl fill ++ row ++ List.replicate pr fill)
      ++ List.replicate pb (List.replicate (pl + i.width + pr) fill)).drop pt).take i.height).map
      (fun row => (row.drop pl).take i.width)) = i.data
  rw [List.append_assoc,
    dropLenAppend (List.replicate pt (List.replicate (pl + i.width + pr) fill)) _ pt
      (List.length_replicate pt _),
    takeLenAppend (i.data.map (fun row => List.replicate pl fill ++ row ++ List.replicate pr fill))
      _ i.height (by simp [Img.height]),
    List.map_map]
  have hrow : ∀ row ∈ i.data,
      (((List.replicate pl fill ++ row ++ List.replicate pr fill).drop pl).take i.width) = row := by
    intro row hr
    rw [List.append_assoc, dropLenAppend (List.replicate pl fill) _ pl (List.length_replicate pl _),
      takeLenAppend row _ i.width (hrect row hr)]
  calc i.data.map ((fun row => (row.drop pl).take i.width) ∘
        (fun row => List.replicate pl fill ++ row ++ List.replicate pr fill))
      = i.data.map (fun row => row) := List.map_congr_left (fun row hr => hrow row hr)
    _ = i.data := List.map_id' i.data

/-- C3: cropping a padded tile back to its original width and height at
offset `(pad_left, pad_top)` reproduces the original pixel buffer exactly;
padding never alters pixel content within the original bounds. -/
theorem claim_C3_crop_roundtrip {α : Type} (black : α) (t : PImage α) (mh mw : List Nat)
    (k th tw : Nat) (hk : tileCoord t = .ok k) (hh : mh[k]? = some th)
    (hw : mw[k]? = some tw) (h1 : t.height ≤ th) (h2 : t.width ≤ tw)
    (hrect : ∀ row ∈ t.data, row.length = t.width)
    (p : Img α) (hp : padImage black t mh mw = .ok p) :
    cropData p ((tw - t.width) / 2) ((th - t.height) / 2) t.width t.height = t.data := by
  rw [padImage_ok_eq black t mh mw k th tw hk hh hw h1 h2] at hp
  cases hp
  exact cropData_expand black t.toImg _ _ _ _ hrect

/-- Witness for C3: the crop of the padded concrete 2x1 tile recovers its
pixel buffer. -/
theorem claim_C3_crop_roundtrip_witness :
    cropData (expand (0 : Nat) uT00.toImg 1 1 1 1) 1 1 uT00.width uT00.height = uT00.data :=
  claim_C3_crop_roundtrip 0 uT00 [3] [4] 0 3 4 (by decide) (by decide) (by decide)
    (by decide) (by decide) (by decide) (expand 0 uT00.toImg 1 1 1 1) (by decide)

/-! Claim C8. -/

/-- C8: when the computed row-strips have mismatched total widths, `merge`
fails with an explicit error at vertical-concatenation time — the stages
before it (reconciliation, padding, horizontal stacking) all succeeded, so no
pre-validation happens earlier — rather than returning a corrupted image. -/
theorem claim_C8_mismatch {α : Type} (black : α) (grouped : List (List (PImage α)))
    (mh mw : List Nat) (strips : List (Img α))
    (h1 : computeTables grouped = .ok (mh, mw))
    (h2 : stripsOf black grouped mh mw = .ok strips)
    (s1 s2 : Img α) (hm1 : s1 ∈ strips) (hm2 : s2 ∈ strips)
    (hne : s1.width ≠ s2.width) :
    mergeP black grouped = .error "ValueError: vstack dimension mismatch" := by
  rw [mergeP, h1]
  show (stripsOf black grouped mh mw).bind _ = _
  rw [h2]
  show vstackI strips = _
  cases strips with
  | nil => simp at hm1
  | cons s0 rest =>
    have hall : rest.all (fun im => im.width == s0.width) = false := by
      cases hres : rest.all (fun im => im.width == s0.width)
      · rfl
      · have hw : ∀ s ∈ s0 :: rest, s.width = s0.width := by
          intro s hs
          rcases List.mem_cons.mp hs with h | h
          · rw [h]
          · exact eq_of_beq (List.all_eq_true.mp hres s h)
        exact absurd (by rw [hw s1 hm1, hw s2 hm2]) hne
    simp [vstackI, hall]

/-- Witness for C8: a ragged 2-group grid (two tiles in row 0, one in row 1)
produces strips of widths 4 and 2, and `merge` fails at vertical stacking. -/
theorem claim_C8_mismatch_witness :
    computeTables raggedGrouped = .ok ([1, 1], [2, 2]) ∧
    stripsOf (0 : Nat) raggedGrouped [1, 1] [2, 2]
      = .ok [⟨4, [[1, 1, 2, 2]]⟩, ⟨2, [[3, 3]]⟩] ∧
    mergeP (0 : Nat) raggedGrouped = .error "ValueError: vstack dimension mismatch" :=
  ⟨by decide, by decide,
    claim_C8_mismatch 0 raggedGrouped [1, 1] [2, 2]
      [⟨4, [[1, 1, 2, 2]]⟩, ⟨2, [[3, 3]]⟩] (by decide) (by decide)
      ⟨4, [[1, 1, 2, 2]]⟩ ⟨2, [[3, 3]]⟩ (by decide) (by decide) (by decide)⟩

/-! Claim C6: lemmas about sorting membership and the grouping fold. -/

theorem mem_insertNat (a x : Str) (l : List Str) :
    a ∈ insertNat x l ↔ a = x ∨ a ∈ l := by
  induction l with
  | nil => simp [insertNat]
  | cons y ys ih =>
    rw [insertNat]
    split
    · simp [List.mem_cons]
    · simp only [List.mem_cons, ih]
      tauto

theorem mem_natsorted_aux (a : Str) (l acc : List Str)
    (h : a ∈ l.foldl (fun acc x => insertNat x acc) acc) : a ∈ acc ∨ a ∈ l := by
  induction l generalizing acc with
  | nil => exact Or.inl h
  | cons x l ih =>
    rcases ih (insertNat x acc) h with h2 | h2
    · rcases (mem_insertNat a x acc).mp h2 with h3 | h3
      · exact Or.inr (by rw [h3]; simp)
      · exact Or.inl h3
    · exact Or.inr (List.mem_cons_of_mem x h2)

theorem mem_natsorted (a : Str) (l : List Str) (h : a ∈ natsorted l) : a ∈ l := by
  rcases mem_natsorted_aux a l [] h with h2 | h2
  · simp at h2
  · exact h2

theorem appendLastG_length (l : List (List Str)) (x : Str) (h : l ≠ []) :
    (appendLastG l x).length = l.length := by
  induction l with
  | nil => exact absurd rfl h
  | cons g gs ih =>
    cases gs with
    | nil => rfl
    | cons g2 gs2 => simpa [appendLastG] using ih (by simp)

theorem appendAt_last (groups : List (List Str)) (x : Str) (h : groups ≠ []) :
    appendAt groups (groups.length - 1) x = .ok (appendLastG groups x) := by
  induction groups with
  | nil => exact absurd rfl h
  | cons g gs ih =>
    cases gs with
    | nil => rfl
    | cons g2 gs2 =>
      show appendAt (g :: g2 :: gs2) (gs2.length + 1) x = _
      show (appendAt (g2 :: gs2) gs2.length x).map (fun r => g :: r) = _
      have hlen : gs2.length = (g2 :: gs2).length - 1 := by simp
      rw [hlen, ih (by simp)]
      rfl

theorem gfold_spec (ext : Str) (rowOf : Str → Nat) (ls : List Str) :
    ∀ (last gi : Nat) (groups : List (List Str)),
      (∀ x ∈ ls, endsWithList ext x = true ∧ coordYName ext x = .ok (rowOf x)) →
      gi + 1 = groups.length →
      ∃ st2 : Nat × Nat × List (List Str),
        ls.foldlM (gStep ext) (last, gi, groups) = .ok st2 ∧
        st2.2.2 = (ls.foldl (specGroupStep rowOf) (last, groups)).2 ∧
        st2.2.1 + 1 = st2.2.2.length := by
  induction ls with
  | nil =>
    intro last gi groups h hlen
    exact ⟨(last, gi, groups), rfl, rfl, hlen⟩
  | cons x ls ih =>
    intro last gi groups h hlen
    have hx := h x (by simp)
    have hrest : ∀ z ∈ ls, endsWithList ext z = true ∧ coordYName ext z = .ok (rowOf z) :=
      fun z hz => h z (List.mem_cons_of_mem x hz)
    by_cases hy : rowOf x = last
    · have hgne : groups ≠ [] := by intro hnil; rw [hnil] at hlen; simp at hlen
      have happ : appendAt groups gi x = .ok (appendLastG groups x) := by
        have hgi : gi = groups.length - 1 := by omega
        rw [hgi]
        exact appendAt_last groups x hgne
      have hstep : gStep ext (last, gi, groups) x = .ok (last, gi, appendLastG groups x) := by
        rw [gStep, hx.1, hx.2]
        show (if rowOf x = last then _ else _ : Except String _) = _
        rw [if_pos hy]
        show (appendAt groups gi x).bind _ = _
        rw [happ]
        rfl
      have hspec : specGroupStep rowOf (last, groups) x = (last, appendLastG groups x) := by
        rw [specGroupStep, if_pos hy]
      obtain ⟨st2, hfold, hsnd, hinv⟩ :=
        ih last gi (appendLastG groups x) hrest (by rw [appendLastG_length groups x hgne]; exact hlen)
      refine ⟨st2, ?_, ?_, hinv⟩
      · show (gStep ext (last, gi, groups) x).bind _ = _
        rw [hstep]
        exact hfold
      · rw [List.foldl_cons, hspec]
        exact hsnd
    · have hstep : gStep ext (last, gi, groups) x = .ok (rowOf x, gi + 1, groups ++ [[x]]) := by
        rw [gStep, hx.1, hx.2]
        show (if rowOf x = last then _ else _ : Except String _) = _
        rw [if_neg hy]
        rfl
      have hspec : specGroupStep rowOf (last, groups) x = (rowOf x, groups ++ [[x]]) := by
        rw [specGroupStep, if_neg hy]
      obtain ⟨st2, hfold, hsnd, hinv⟩ :=
        ih (rowOf x) (gi + 1) (groups ++ [[x]]) hrest (by simp; omega)
      refine ⟨st2, ?_, ?_, hinv⟩
      · show (gStep ext (last, gi, groups) x).bind _ = _
        rw [hstep]
        exact hfold
      · rw [List.foldl_cons, hspec]
        exact hsnd

/-- C6: grouping natural-sorts the tile paths and then partitions them by
tracking the previous row coordinate initialized to 0, appending a tile whose
row equals the tracked value to the current group and otherwise starting a
new group (the fold described by the spec); in particular the six tiles
`im_0_0.png … im_1_2.png` yield exactly two row-groups of three tiles each,
row 0 before row 1. -/
theorem claim_C6_grouping :
    (∀ (images : List Str) (ext : Str) (rowOf : Str → Nat),
      (∀ img ∈ images, endsWithList ext img = true ∧ coordYName ext img = .ok (rowOf img)) →
      groupImages images ext = .ok (specGroup rowOf images)) ∧
    groupImages sixScrambled ("png").data
      = .ok [["im_0_0.png".data, "im_0_1.png".data, "im_0_2.png".data],
             ["im_1_0.png".data, "im_1_1.png".data, "im_1_2.png".data]] := by
  constructor
  · intro images ext rowOf h
    have hmem : ∀ x ∈ natsorted images,
        endsWithList ext x = true ∧ coordYName ext x = .ok (rowOf x) :=
      fun x hx => h x (mem_natsorted x images hx)
    obtain ⟨st2, hfold, hsnd, hinv⟩ := gfold_spec ext rowOf (natsorted images) 0 0 [[]] hmem rfl
    rw [groupImages]
    show ((natsorted images).foldlM (gStep ext) (0, 0, [[]])).bind _ = _
    rw [hfold]
    show Except.ok st2.2.2 = _
    rw [hsnd]
    rfl
  · decide

/-- Witness for C6: the general grouping refinement applied to the six
scrambled names with the parsed row coordinate. -/
theorem claim_C6_grouping_witness :
    groupImages sixScrambled ("png").data = .ok (specGroup rowByName sixScrambled) :=
  claim_C6_grouping.1 sixScrambled ("png").data rowByName (by decide)

/-! Claim C4: characterization of the reconciliation pass. -/

theorem getD_set_self (l : List Nat) (k v : Nat) (h : k < l.length) :
    ((l.set k v)[k]?).getD 0 = v := by rw [get?_set_self l k v h]; rfl

theorem getD_set_ne (l : List Nat) (k j v : Nat) (h : j ≠ k) :
    ((l.set k v)[j]?).getD 0 = (l[j]?).getD 0 := by rw [get?_set_ne l k j v h]

theorem tilesOfRow_cons_eq {α : Type} (cf : PImage α → Nat) (t : PImage α) (g : List (PImage α)) :
    tilesOfRow cf (cf t) (t :: g) = t :: tilesOfRow cf (cf t) g := by
  simp [tilesOfRow, List.filter_cons]

theorem tilesOfRow_cons_ne {α : Type} (cf : PImage α → Nat) (k : Nat) (t : PImage α)
    (g : List (PImage α)) (h : cf t ≠ k) :
    tilesOfRow cf k (t :: g) = tilesOfRow cf k g := by
  simp [tilesOfRow, List.filter_cons, h]

theorem tilesOfRow_append {α : Type} (cf : PImage α → Nat) (k : Nat) (a b : List (PImage α)) :
    tilesOfRow cf k (a ++ b) = tilesOfRow cf k a ++ tilesOfRow cf k b := by
  simp [tilesOfRow, List.filter_append]

/-- Success shape of one reconciliation step: the height table is updated at
the tile's parsed row coordinate, the width table at the group index `i`. -/
theorem tStep_ok {α : Type} (cf : PImage α → Nat) (i : Nat) (st : List Nat × List Nat)
    (t : PImage α) (hc : tileCoord t = .ok (cf t)) (hb : cf t < st.1.length)
    (hi : i < st.2.length) :
    tStep i st t = .ok (st.1.set (cf t) (max ((st.1[cf t]?).getD 0) t.height),
                        st.2.set i (max ((st.2[i]?).getD 0) t.width)) := by
  rw [tStep, hc]
  show (nthE st.1 (cf t)).bind _ = _
  rw [nthE_eq_of_lt st.1 (cf t) hb]
  show (nthE st.2 i).bind _ = _
  rw [nthE_eq_of_lt st.2 i hi]
  rfl

/-- Effect of the inner reconciliation fold over one group with index `i`. -/
theorem groupFoldChar {α : Type} (cf : PImage α → Nat) (i : Nat) (g : List (PImage α)) :
    ∀ (st : List Nat × List Nat),
      (∀ t ∈ g, tileCoord t = .ok (cf t)) →
      (∀ t ∈ g, cf t < st.1.length) →
      i < st.2.length →
      ∃ mh mw, g.foldlM (tStep i) st = .ok (mh, mw) ∧
        mh.length = st.1.length ∧ mw.length = st.2.length ∧
        (∀ k, (mh[k]?).getD 0 = max ((st.1[k]?).getD 0)
            (natMaxL ((tilesOfRow cf k g).map PImage.height))) ∧
        ((mw[i]?).getD 0 = max ((st.2[i]?).getD 0) (natMaxL (g.map PImage.width))) ∧
        (∀ j, j ≠ i → (mw[j]?).getD 0 = (st.2[j]?).getD 0) := by
  induction g with
  | nil =>
    intro st hc hb hi
    exact ⟨st.1, st.2, rfl, rfl, rfl,
      fun k => by simp [tilesOfRow, natMaxL],
      by simp [natMaxL], fun j _ => rfl⟩
  | cons t g ih =>
    intro st hc hb hi
    have hct := hc t (by simp)
    have hbt := hb t (by simp)
    obtain ⟨mh, mw, hfold, hlh, hlw, hhk, hwi, hwj⟩ :=
      ih (st.1.set (cf t) (max ((st.1[cf t]?).getD 0) t.height),
          st.2.set i (max ((st.2[i]?).getD 0) t.width))
        (fun z hz => hc z (List.mem_cons_of_mem t hz))
        (fun z hz => by simpa using hb z (List.mem_cons_of_mem t hz))
        (by simpa using hi)
    refine ⟨mh, mw, ?_, ?_, ?_, ?_, ?_, ?_⟩
    · show (tStep i st t).bind _ = _
      rw [tStep_ok cf i st t hct hbt hi]
      exact hfold
    · rw [hlh]; simp
    · rw [hlw]; simp
    · intro k
      by_cases hk : k = cf t
      · rw [hk, hhk (cf t), getD_set_self st.1 (cf t) _ hbt, tilesOfRow_cons_eq cf t g]
        show max (max ((st.1[cf t]?).getD 0) t.height) _
          = max ((st.1[cf t]?).getD 0) (natMaxL (t.height :: (tilesOfRow cf (cf t) g).map PImage.height))
        rw [natMaxL_cons, Nat.max_assoc]
      · rw [hhk k, getD_set_ne st.1 (cf t) k _ hk,
          tilesOfRow_cons_ne cf k t g (fun hh => hk (by rw [hh]))]
    · rw [hwi, getD_set_self st.2 i _ hi]
      show max (max ((st.2[i]?).getD 0) t.width) _
        = max ((st.2[i]?).getD 0) (natMaxL (t.width :: g.map PImage.width))
      rw [natMaxL_cons, Nat.max_assoc]
    · intro j hj
      rw [hwj j hj, getD_set_ne st.2 i j _ hj]

/-- Effect of the enumerated outer reconciliation fold starting at index
`n`. -/
theorem tablesFoldChar {α : Type} (cf : PImage α → Nat) (gs : List (List (PImage α))) :
    ∀ (n : Nat) (st : List Nat × List Nat),
      (∀ t ∈ gs.flatten, tileCoord t = .ok (cf t)) →
      (∀ t ∈ gs.flatten, cf t < st.1.length) →
      n + gs.length ≤ st.2.length →
      ∃ mh mw, (List.enumFrom n gs).foldlM (fun st2 ig => ig.2.foldlM (tStep ig.1) st2) st
          = .ok (mh, mw) ∧
        mh.length = st.1.length ∧ mw.length = st.2.length ∧
        (∀ k, (mh[k]?).getD 0 = max ((st.1[k]?).getD 0)
            (natMaxL ((tilesOfRow cf k gs.flatten).map PImage.height))) ∧
        (∀ m, m < gs.length → (mw[n + m]?).getD 0
            = max ((st.2[n + m]?).getD 0) (natMaxL ((gs.getD m []).map PImage.width))) ∧
        (∀ j, j < n → (mw[j]?).getD 0 = (st.2[j]?).getD 0) := by
  induction gs with
  | nil =>
    intro n st hc hb hlen
    exact ⟨st.1, st.2, rfl, rfl, rfl,
      fun k => by simp [tilesOfRow, natMaxL],
      fun m hm => by simp at hm, fun j _ => rfl⟩
  | cons g gs ih =>
    intro n st hc hb hlen
    have hcg : ∀ t ∈ g, tileCoord t = .ok (cf t) :=
      fun t ht => hc t (by simp [List.mem_append, ht])
    have hbg : ∀ t ∈ g, cf t < st.1.length :=
      fun t ht => hb t (by simp [List.mem_append, ht])
    have hn : n < st.2.length := by simp at hlen; omega
    obtain ⟨mh1, mw1, hfold1, hlh1, hlw1, hhk1, hwi1, hwj1⟩ :=
      groupFoldChar cf n g st hcg hbg hn
    obtain ⟨mh, mw, hfold2, hlh2, hlw2, hhk2, hwm2, hwj2⟩ :=
      ih (n + 1) (mh1, mw1)
        (fun t ht => hc t (by simp [List.mem_append, ht]))
        (fun t ht => by rw [hlh1]; exact hb t (by simp [List.mem_append, ht]))
        (by rw [hlw1]; simp at hlen ⊢; omega)
    refine ⟨mh, mw, ?_, ?_, ?_, ?_, ?_, ?_⟩
    · show (g.foldlM (tStep n) st).bind _ = _
      rw [hfold1]
      exact hfold2
    · rw [hlh2, hlh1]
    · rw [hlw2, hlw1]
    · intro k
      rw [hhk2 k, hhk1 k]
      show max (max _ _) _ = _
      rw [Nat.max_assoc]
      have hfl : (g :: gs).flatten = g ++ gs.flatten := by simp
      rw [hfl, tilesOfRow_append, List.map_append, natMaxL_append]
    · intro m hm
      cases m with
      | zero =>
        have : n + 0 = n := by omega
        rw [this, hwj2 n (by omega), hwi1]
        rfl
      | succ m2 =>
        have hidx : n + (m2 + 1) = (n + 1) + m2 := by omega
        rw [hidx, hwm2 m2 (by simpa using hm), hwj1 ((n + 1) + m2) (by omega)]
        rfl
    · intro j hj
      rw [hwj2 j (by omega), hwj1 j (by omega)]

/-- Characterization of `computeTables`: the height table entry at `k` is the
maximum height over every tile (of any group) whose parsed row coordinate is
`k`, and the width table entry at `i` is the maximum width over group `i`. -/
theorem computeTablesChar {α : Type} (cf : PImage α → Nat) (grouped : List (List (PImage α)))
    (hc : ∀ t ∈ grouped.flatten, tileCoord t = .ok (cf t))
    (hb : ∀ t ∈ grouped.flatten, cf t < grouped.length) :
    ∃ mh mw, computeTables grouped = .ok (mh, mw) ∧
      mh.length = grouped.length ∧ mw.length = grouped.length ∧
      (∀ k, (mh[k]?).getD 0 = natMaxL ((tilesOfRow cf k grouped.flatten).map PImage.height)) ∧
      (∀ i, i < grouped.length → (mw[i]?).getD 0
          = natMaxL ((grouped.getD i []).map PImage.width)) := by
  obtain ⟨mh, mw, hfold, h1, h2, h3, h4, _⟩ :=
    tablesFoldChar cf grouped 0 (List.replicate grouped.length 0, List.replicate grouped.length 0)
      hc (by simpa using hb) (by simp)
  refine ⟨mh, mw, hfold, by simpa using h1, by simpa using h2, ?_, ?_⟩
  · intro k
    rw [h3 k]
    show max ((List.replicate grouped.length 0)[k]?.getD 0) _ = _
    rw [get?_replicate_zero, Nat.zero_max]
  · intro i hi
    have h5 := h4 i hi
    rw [Nat.zero_add] at h5
    rw [h5]
    show max ((List.replicate grouped.length 0)[i]?.getD 0) _ = _
    rw [get?_replicate_zero, Nat.zero_max]

/-- C4: during dimension reconciliation each tile updates the max-height
table at the key parsed from its filename (so the entry at `k` is the maximum
height over all tiles of row `k` across every group) while the max-width
table is updated at the enclosing group's enumeration index (so the entry at
`i` is the maximum width over group `i`), both built by the one
`computeTables` pass. -/
theorem claim_C4_reconciliation {α : Type} (cf : PImage α → Nat)
    (grouped : List (List (PImage α)))
    (hc : ∀ t ∈ grouped.flatten, tileCoord t = .ok (cf t))
    (hb : ∀ t ∈ grouped.flatten, cf t < grouped.length) :
    ∃ mh mw, computeTables grouped = .ok (mh, mw) ∧
      mh.length = grouped.length ∧ mw.length = grouped.length ∧
      (∀ k, (mh[k]?).getD 0 = natMaxL ((tilesOfRow cf k grouped.flatten).map PImage.height)) ∧
      (∀ i, i < grouped.length → (mw[i]?).getD 0
          = natMaxL ((grouped.getD i []).map PImage.width)) :=
  computeTablesChar cf grouped hc hb

/-- Witness for C4 on the concrete three-group tile set. -/
theorem claim_C4_reconciliation_witness :
    (∀ t ∈ cexGrouped.flatten, tileCoord t = .ok (coordAssign t)) ∧
    (∀ t ∈ cexGrouped.flatten, coordAssign t < cexGrouped.length) ∧
    (∃ mh mw, computeTables cexGrouped = .ok (mh, mw) ∧
      mh.length = cexGrouped.length ∧ mw.length = cexGrouped.length ∧
      (∀ k, (mh[k]?).getD 0
          = natMaxL ((tilesOfRow coordAssign k cexGrouped.flatten).map PImage.height)) ∧
      (∀ i, i < cexGrouped.length → (mw[i]?).getD 0
          = natMaxL ((cexGrouped.getD i []).map PImage.width))) :=
  ⟨by decide, by decide,
    claim_C4_reconciliation coordAssign cexGrouped (by decide) (by decide)⟩

/-! Claim C1: uniform grids merge without padding to the exact size. -/

theorem getElem?_lt_isSomeG {β : Type} (l : List β) (k : Nat) (h : k < l.length) :
    ∃ v, l[k]? = some v := by
  induction l generalizing k with
  | nil => simp at h
  | cons a l ih =>
    cases k with
    | zero => exact ⟨a, by simp⟩
    | succ k => simpa using ih k (by simpa using h)

theorem mem_of_get?_eq {β : Type} (l : List β) (n : Nat) (a : β) (h : l[n]? = some a) :
    a ∈ l := by
  induction l generalizing n with
  | nil => simp at h
  | cons x l ih =>
    cases n with
    | zero => simp at h; simp [h]
    | succ n =>
      simp at h
      exact List.mem_cons_of_mem x (ih n h)

theorem getD_eq_of_get? {β : Type} (l : List β) (n : Nat) (d a : β) (h : l[n]? = some a) :
    l.getD n d = a := by
  induction l generalizing n with
  | nil => simp at h
  | cons x l ih =>
    cases n with
    | zero => simp at h; simp [List.getD, h]
    | succ n =>
      simp at h
      simpa [List.getD] using ih n h

theorem expand_zero {α : Type} (fill : α) (i : Img α) : expand fill i 0 0 0 0 = i := by
  cases i with
  | mk w d => simp [expand]

theorem mapM_ok {β γ : Type} (f : β → Except String γ) (gf : β → γ) (l : List β)
    (h : ∀ x ∈ l, f x = .ok (gf x)) : l.mapM f = .ok (l.map gf) := by
  induction l with
  | nil => rfl
  | cons x l ih =>
    rw [List.mapM_cons, h x (by simp), ih (fun z hz => h z (List.mem_cons_of_mem x hz))]
    rfl

theorem foldl_hcat2_props {α : Type} (Wd Ht : Nat) (rest : List (Img α)) :
    ∀ (a : Img α), (∀ im ∈ rest, im.width = Wd ∧ im.height = Ht) → a.height = Ht →
      (rest.foldl hcat2 a).width = a.width + rest.length * Wd ∧
      (rest.foldl hcat2 a).height = Ht := by
  induction rest with
  | nil =>
    intro a _ ha
    exact ⟨by simp, ha⟩
  | cons b rest ih =>
    intro a h ha
    have hb := h b (by simp)
    have hcatw : (hcat2 a b).width = a.width + Wd := by
      show a.width + b.width = a.width + Wd
      rw [hb.1]
    have hcath : (hcat2 a b).height = Ht := by
      show (List.zipWith _ a.data b.data).length = Ht
      rw [List.length_zipWith]
      have h1 : a.data.length = Ht := ha
      have h2 : b.data.length = Ht := hb.2
      rw [h1, h2, Nat.min_self]
    obtain ⟨hw, hh⟩ := ih (hcat2 a b) (fun z hz => h z (List.mem_cons_of_mem b hz)) hcath
    refine ⟨?_, hh⟩
    rw [List.foldl_cons, hw, hcatw, List.length_cons]
    ring

theorem hstackI_uniform {α : Type} (imgs : List (Img α)) (Wd Ht : Nat) (hne : imgs ≠ [])
    (h : ∀ im ∈ imgs, im.width = Wd ∧ im.height = Ht) :
    ∃ r, hstackI imgs = .ok r ∧ r.width = imgs.length * Wd ∧ r.height = Ht := by
  cases imgs with
  | nil => exact absurd rfl hne
  | cons a rest =>
    have hall : rest.all (fun im => im.height == a.height) = true := by
      rw [List.all_eq_true]
      intro im him
      exact beq_iff_eq.mpr (by rw [(h im (List.mem_cons_of_mem a him)).2, (h a (by simp)).2])
    have hprops := foldl_hcat2_props Wd Ht rest a
      (fun z hz => h z (List.mem_cons_of_mem a hz)) (h a (by simp)).2
    refine ⟨rest.foldl hcat2 a, by simp [hstackI, hall], ?_, hprops.2⟩
    rw [hprops.1, (h a (by simp)).1, List.length_cons]
    ring

theorem flatten_length_sum {β : Type} (L : List (List β)) :
    L.flatten.length = (L.map List.length).sum := by
  induction L with
  | nil => rfl
  | cons x L ih => simp [ih]

theorem sum_const_nat (l : List Nat) (v : Nat) (h : ∀ x ∈ l, x = v) :
    l.sum = l.length * v := by
  induction l with
  | nil => simp
  | cons x l ih =>
    rw [List.sum_cons, ih (fun z hz => h z (List.mem_cons_of_mem x hz)), h x (by simp),
      List.length_cons]
    ring

theorem vstackI_uniform {α : Type} (imgs : List (Img α)) (Wd : Nat) (hne : imgs ≠ [])
    (hw : ∀ im ∈ imgs, im.width = Wd) :
    ∃ r, vstackI imgs = .ok r ∧ r.width = Wd ∧ r.height = (imgs.map Img.height).sum := by
  cases imgs with
  | nil => exact absurd rfl hne
  | cons a rest =>
    have hall : rest.all (fun im => im.width == a.width) = true := by
      rw [List.all_eq_true]
      intro im him
      exact beq_iff_eq.mpr (by rw [hw im (List.mem_cons_of_mem a him), hw a (by simp)])
    refine ⟨⟨a.width, ((a :: rest).map Img.data).flatten⟩, by simp [vstackI, hall], hw a (by simp), ?_⟩
    show (((a :: rest).map Img.data).flatten).length = _
    rw [flatten_length_sum, List.map_map]
    rfl

theorem get?_of_mem {β : Type} (l : List β) (a : β) (h : a ∈ l) :
    ∃ n : Nat, l[n]? = some a := by
  induction l with
  | nil => simp at h
  | cons x l ih =>
    rcases List.mem_cons.mp h with h2 | h2
    · exact ⟨0, by simp [h2]⟩
    · obtain ⟨n, hn⟩ := ih h2
      exact ⟨n + 1, by simpa using hn⟩

theorem get?_some_lt {β : Type} (l : List β) (n : Nat) (a : β) (h : l[n]? = some a) :
    n < l.length := by
  induction l generalizing n with
  | nil => simp at h
  | cons x l ih =>
    cases n with
    | zero => simp
    | succ n =>
      simp at h
      simpa using ih n h

theorem stripsOf_uniform {α : Type} (black : α) (mh mw : List Nat) (Wt Ht : Nat)
    (gs : List (List (PImage α)))
    (h : ∀ g ∈ gs, ∃ r, stripFor black mh mw g = .ok r ∧ r.width = Wt ∧ r.height = Ht) :
    ∃ strips, stripsOf black gs mh mw = .ok strips ∧ strips.length = gs.length ∧
      ∀ s ∈ strips, s.width = Wt ∧ s.height = Ht := by
  induction gs with
  | nil => exact ⟨[], rfl, rfl, by simp⟩
  | cons g gs ih =>
    obtain ⟨r, hr, hrw, hrh⟩ := h g (by simp)
    obtain ⟨strips, hs, hl, hp⟩ := ih (fun z hz => h z (List.mem_cons_of_mem g hz))
    refine ⟨r :: strips, ?_, by simp [hl], ?_⟩
    · rw [stripsOf, List.mapM_cons, hr]
      rw [stripsOf] at hs
      rw [hs]
      rfl
    · intro s hs2
      rcases List.mem_cons.mp hs2 with h2 | h2
      · rw [h2]; exact ⟨hrw, hrh⟩
      · exact hp s h2

/-- C1: for a uniform tile set of `W x H` tiles arranged in `R` row-groups of
`C` complete columns with rows contiguous from 0 (each tile's parsed row
coordinate equals its group index), `merge` succeeds, every tile is padded to
itself (zero added padding), and the composed image is exactly `C*W` wide and
`R*H` high. -/
theorem claim_C1_uniform_merge {α : Type} (black : α) (grouped : List (List (PImage α)))
    (R C W H : Nat) (hR : grouped.length = R) (hRpos : 0 < R) (hCpos : 0 < C)
    (hsize : ∀ g ∈ grouped, g.length = C)
    (hcoord : ∀ i, i < grouped.length → ∀ t ∈ grouped.getD i [], tileCoord t = .ok i)
    (hdims : ∀ t ∈ grouped.flatten, t.width = W ∧ t.height = H ∧
      ∀ row ∈ t.data, row.length = t.width) :
    ∃ mh mw img, computeTables grouped = .ok (mh, mw) ∧
      (∀ t ∈ grouped.flatten, padImage black t mh mw = .ok t.toImg) ∧
      mergeP black grouped = .ok img ∧ img.width = C * W ∧ img.height = R * H := by
  have hidx : ∀ t ∈ grouped.flatten, ∃ i g, grouped[i]? = some g ∧ t ∈ g ∧
      tileCoord t = .ok i := by
    intro t ht
    obtain ⟨g, hg, htg⟩ := List.mem_flatten.mp ht
    obtain ⟨i, hgi⟩ := get?_of_mem grouped g hg
    have hlt : i < grouped.length := get?_some_lt grouped i g hgi
    refine ⟨i, g, hgi, htg, ?_⟩
    have h2 := hcoord i hlt
    rw [getD_eq_of_get? grouped i [] g hgi] at h2
    exact h2 t htg
  have hcf : ∀ t ∈ grouped.flatten,
      tileCoord t = .ok ((fun z => ((tileCoord z).toOption).getD 0) t) := by
    intro t ht
    obtain ⟨i, g, _, _, hco⟩ := hidx t ht
    show tileCoord t = .ok (((tileCoord t).toOption).getD 0)
    rw [hco]
    rfl
  have hbnd : ∀ t ∈ grouped.flatten,
      (fun z => ((tileCoord z).toOption).getD 0) t < grouped.length := by
    intro t ht
    obtain ⟨i, g, hgi, _, hco⟩ := hidx t ht
    show ((tileCoord t).toOption).getD 0 < grouped.length
    rw [hco]
    exact get?_some_lt grouped i g hgi
  obtain ⟨mh, mw, hct, hlh, hlw, hhk, hwi⟩ :=
    computeTablesChar (fun z => ((tileCoord z).toOption).getD 0) grouped hcf hbnd
  have hmemflat : ∀ (g : List (PImage α)), g ∈ grouped → ∀ t ∈ g, t ∈ grouped.flatten :=
    fun g hg t ht => List.mem_flatten.mpr ⟨g, hg, ht⟩
  have hmh : ∀ i, i < grouped.length → (mh[i]?).getD 0 = H := by
    intro i hlt
    obtain ⟨g, hgi⟩ := getElem?_lt_isSomeG grouped i hlt
    have hgm : g ∈ grouped := mem_of_get?_eq grouped i g hgi
    have hgne : g ≠ [] := by
      have := hsize g hgm
      intro hnil
      rw [hnil] at this
      simp at this
      omega
    obtain ⟨t0, ht0⟩ := List.exists_mem_of_ne_nil g hgne
    have ht0f : t0 ∈ grouped.flatten := hmemflat g hgm t0 ht0
    have hco0 : tileCoord t0 = .ok i := by
      have h2 := hcoord i hlt
      rw [getD_eq_of_get? grouped i [] g hgi] at h2
      exact h2 t0 ht0
    have ht0row : t0 ∈ tilesOfRow (fun z => ((tileCoord z).toOption).getD 0) i grouped.flatten := by
      rw [tilesOfRow, List.mem_filter]
      refine ⟨ht0f, ?_⟩
      show ((((tileCoord t0).toOption).getD 0 : Nat) == i) = true
      rw [hco0]
      simp [Except.toOption]
    rw [hhk i]
    refine natMaxL_allEq _ H (List.ne_nil_of_mem (List.mem_map_of_mem PImage.height ht0row)) ?_
    intro x hx
    obtain ⟨t, htmem, hteq⟩ := List.mem_map.mp hx
    have htf : t ∈ grouped.flatten := (List.mem_filter.mp htmem).1
    rw [← hteq]
    exact (hdims t htf).2.1
  have hmw : ∀ i, i < grouped.length → (mw[i]?).getD 0 = W := by
    intro i hlt
    obtain ⟨g, hgi⟩ := getElem?_lt_isSomeG grouped i hlt
    have hgm : g ∈ grouped := mem_of_get?_eq grouped i g hgi
    have hgne : g ≠ [] := by
      have := hsize g hgm
      intro hnil
      rw [hnil] at this
      simp at this
      omega
    rw [hwi i hlt, getD_eq_of_get? grouped i [] g hgi]
    obtain ⟨t0, ht0⟩ := List.exists_mem_of_ne_nil g hgne
    refine natMaxL_allEq _ W (List.ne_nil_of_mem (List.mem_map_of_mem PImage.width ht0)) ?_
    intro x hx
    obtain ⟨t, htmem, hteq⟩ := List.mem_map.mp hx
    rw [← hteq]
    exact (hdims t (hmemflat g hgm t htmem)).1
  have hpad : ∀ t ∈ grouped.flatten, padImage black t mh mw = .ok t.toImg := by
    intro t ht
    obtain ⟨i, g, hgi, htg, hco⟩ := hidx t ht
    have hlt : i < grouped.length := get?_some_lt grouped i g hgi
    obtain ⟨vh, hvh⟩ := getElem?_lt_isSomeG mh i (by rw [hlh]; exact hlt)
    obtain ⟨vw, hvw⟩ := getElem?_lt_isSomeG mw i (by rw [hlw]; exact hlt)
    have hvh2 : vh = H := by
      have h2 := hmh i hlt
      rw [hvh] at h2
      simpa using h2
    have hvw2 : vw = W := by
      have h2 := hmw i hlt
      rw [hvw] at h2
      simpa using h2
    have hdt := hdims t ht
    have h1 : t.height ≤ vh := by rw [hvh2, hdt.2.1]
    have h2 : t.width ≤ vw := by rw [hvw2, hdt.1]
    rw [padImage_ok_eq black t mh mw i vh vw hco hvh hvw h1 h2]
    have hz1 : vw - t.width = 0 := by rw [hvw2, hdt.1]; exact Nat.sub_self W
    have hz2 : vh - t.height = 0 := by rw [hvh2, hdt.2.1]; exact Nat.sub_self H
    rw [hz1, hz2]
    simp [expand_zero]
  have hstrip : ∀ g ∈ grouped, ∃ r, stripFor black mh mw g = .ok r ∧
      r.width = C * W ∧ r.height = H := by
    intro g hg
    have hmapM : g.mapM (fun t => padImage black t mh mw) = .ok (g.map PImage.toImg) :=
      mapM_ok _ PImage.toImg g (fun t ht => hpad t (hmemflat g hg t ht))
    have hgne : g ≠ [] := by
      have := hsize g hg
      intro hnil
      rw [hnil] at this
      simp at this
      omega
    have hprops : ∀ im ∈ g.map PImage.toImg, im.width = W ∧ im.height = H := by
      intro im him
      obtain ⟨t, htm, hteq⟩ := List.mem_map.mp him
      have hdt := hdims t (hmemflat g hg t htm)
      rw [← hteq]
      exact ⟨hdt.1, hdt.2.1⟩
    obtain ⟨r, hr, hrw, hrh⟩ := hstackI_uniform (g.map PImage.toImg) W H
      (by intro hnil; rw [List.map_eq_nil_iff] at hnil; exact hgne hnil) hprops
    refine ⟨r, ?_, ?_, hrh⟩
    · rw [stripFor, hmapM]
      show hstackI (g.map PImage.toImg) = _
      exact hr
    · rw [hrw, List.length_map, hsize g hg]
  obtain ⟨strips, hstrips, hslen, hsprops⟩ :=
    stripsOf_uniform black mh mw (C * W) H grouped hstrip
  have hsne : strips ≠ [] := by
    intro hnil
    rw [hnil] at hslen
    simp at hslen
    omega
  obtain ⟨img, hv, hvw, hvh⟩ := vstackI_uniform strips (C * W) hsne
    (fun s hs => (hsprops s hs).1)
  refine ⟨mh, mw, img, hct, hpad, ?_, hvw, ?_⟩
  · rw [mergeP, hct]
    show (stripsOf black grouped mh mw).bind _ = _
    rw [hstrips]
    show vstackI strips = _
    exact hv
  · rw [hvh, sum_const_nat (strips.map Img.height) H
      (fun x hx => by
        obtain ⟨s, hsm, hseq⟩ := List.mem_map.mp hx
        rw [← hseq]
        exact (hsprops s hsm).2),
      List.length_map, hslen, hR]

/-- Witness for C1: a uniform 2x2 grid of 2x1 tiles merges to a 4x2 image
with no padding. -/
theorem claim_C1_uniform_merge_witness :
    (∀ g ∈ uniGrouped, g.length = 2) ∧
    (∃ mh mw img, computeTables uniGrouped = .ok (mh, mw) ∧
      (∀ t ∈ uniGrouped.flatten, padImage (0 : Nat) t mh mw = .ok t.toImg) ∧
      mergeP (0 : Nat) uniGrouped = .ok img ∧ img.width = 2 * 2 ∧ img.height = 2 * 1) :=
  ⟨by decide,
    claim_C1_uniform_merge 0 uniGrouped 2 2 2 1 (by decide) (by decide) (by decide)
      (by decide) (by decide) (by decide)⟩

/-! Claim C10 (corrected): in-bounds lookups under contiguity, and failure
shape for tile sets whose smallest row coordinate is nonzero. -/

theorem appendAt_ok_length (l : List (List Str)) (i : Nat) (x : Str) (r : List (List Str))
    (h : appendAt l i x = .ok r) : r.length = l.length := by
  induction l generalizing i r with
  | nil => cases h
  | cons g gs ih =>
    cases i with
    | zero =>
      cases h
      simp
    | succ i =>
      cases happ : appendAt gs i x with
      | error e => rw [appendAt, happ] at h; cases h
      | ok r2 =>
        rw [appendAt, happ] at h
        cases h
        simpa using ih i r2 happ

theorem appendAt_pos_head (l : List (List Str)) (i : Nat) (x : Str) (r : List (List Str))
    (h : appendAt l (Nat.succ i) x = .ok r) : r.headD [] = l.headD [] := by
  cases l with
  | nil => cases h
  | cons g gs =>
    cases happ : appendAt gs i x with
    | error e => rw [appendAt, happ] at h; cases h
    | ok r2 =>
      rw [appendAt, happ] at h
      cases h
      rfl

theorem headD_append (l m : List (List Str)) (h : l ≠ []) :
    (l ++ m).headD [] = l.headD [] := by
  cases l with
  | nil => exact absurd rfl h
  | cons g gs => rfl

/-- Invariant of the grouping fold: when every matching tile has row
coordinate at least 1, the leading group stays empty (nothing is ever
appended to it). -/
theorem gfold_headEmpty (ext : Str) (rowOf : Str → Nat) (ls : List Str) :
    ∀ (last gi : Nat) (groups : List (List Str)) (st2 : Nat × Nat × List (List Str)),
      (∀ x ∈ ls, endsWithList ext x = true →
        coordYName ext x = .ok (rowOf x) ∧ 1 ≤ rowOf x) →
      (gi = 0 → last = 0 ∧ groups = [[]]) →
      gi < groups.length →
      groups.headD [] = [] →
      ls.foldlM (gStep ext) (last, gi, groups) = .ok st2 →
      st2.2.2.headD [] = [] ∧ st2.2.2 ≠ [] := by
  induction ls with
  | nil =>
    intro last gi groups st2 _ _ hgi hhead hfold
    cases hfold
    refine ⟨hhead, ?_⟩
    intro hnil
    simp at hnil
    rw [hnil] at hgi
    simp at hgi
  | cons x ls ih =>
    intro last gi groups st2 h h0 hgi hhead hfold
    have hrest : ∀ z ∈ ls, endsWithList ext z = true →
        coordYName ext z = .ok (rowOf z) ∧ 1 ≤ rowOf z :=
      fun z hz => h z (List.mem_cons_of_mem x hz)
    by_cases hx : endsWithList ext x = true
    · obtain ⟨hk, hk1⟩ := h x (by simp) hx
      by_cases hkl : rowOf x = last
      · have hgine : gi ≠ 0 := by
          intro h0x
          obtain ⟨hl0, _⟩ := h0 h0x
          omega
        obtain ⟨gi2, hgieq⟩ := Nat.exists_eq_succ_of_ne_zero hgine
        have hstep : gStep ext (last, gi, groups) x
            = (appendAt groups gi x).map (fun gs => (last, gi, gs)) := by
          rw [gStep, hx, hk]
          show (if rowOf x = last then _ else _ : Except String _) = _
          rw [if_pos hkl]
          cases appendAt groups gi x <;> rfl
        rw [List.foldlM_cons, hstep] at hfold
        cases happ : appendAt groups gi x with
        | error e =>
          rw [happ] at hfold
          cases hfold
        | ok gs2 =>
          rw [happ] at hfold
          refine ih last gi gs2 st2 hrest (fun h0x => absurd h0x hgine) ?_ ?_ hfold
          · rw [appendAt_ok_length groups gi x gs2 happ]
            exact hgi
          · rw [hgieq] at happ
            rw [appendAt_pos_head groups gi2 x gs2 happ]
            exact hhead
      · have hstep : gStep ext (last, gi, groups) x
            = .ok (rowOf x, gi + 1, groups ++ [[x]]) := by
          rw [gStep, hx, hk]
          show (if rowOf x = last then _ else _ : Except String _) = _
          rw [if_neg hkl]
          rfl
        rw [List.foldlM_cons, hstep] at hfold
        refine ih (rowOf x) (gi + 1) (groups ++ [[x]]) st2 hrest (by omega) ?_ ?_ hfold
        · simp
          omega
        · rw [headD_append groups [[x]] (by intro hnil; rw [hnil] at hgi; simp at hgi)]
          exact hhead
    · have hstep : gStep ext (last, gi, groups) x = .ok (last, gi, groups) := by
        rw [gStep]
        rw [Bool.not_eq_true] at hx
        rw [hx]
        rfl
      rw [List.foldlM_cons, hstep] at hfold
      exact ih last gi groups st2 hrest h0 hgi hhead hfold

/-- Counterexample to C10 as stated: the tile set `im_1_0.png, im_1_1.png`
has smallest row coordinate 1 (nonzero), yet no table lookup fails — the
reconciliation tables are computed and both tiles pad successfully — and the
failure `merge` does hit is the horizontal stacking of the empty leading
group, not an index error. -/
theorem claim_C10_counterexample :
    coordYName ("png").data ("im_1_0.png").data = .ok 1 ∧
    coordYName ("png").data ("im_1_1.png").data = .ok 1 ∧
    groupImages rowsOneNames ("png").data
      = .ok [[], ["im_1_0.png".data, "im_1_1.png".data]] ∧
    computeTables [[], ["im_1_0.png".data, "im_1_1.png".data].map rowsOneOpener]
      = .ok ([0, 1], [0, 2]) ∧
    padImage (0 : Nat) (rowsOneOpener ("im_1_0.png").data) [0, 1] [0, 2]
      = .ok (rowsOneOpener ("im_1_0.png").data).toImg ∧
    padImage (0 : Nat) (rowsOneOpener ("im_1_1.png").data) [0, 1] [0, 2]
      = .ok (rowsOneOpener ("im_1_1.png").data).toImg ∧
    mergeFromNames (0 : Nat) rowsOneOpener rowsOneNames ("png").data
      = .error "ValueError: need at least one array to concatenate" :=
  ⟨by decide, by decide, by decide, by decide, by decide, by decide, by decide⟩

/-- C10 amended: `pad_image` looks both targets up at the parsed row
coordinate; under contiguous-from-0 rows (each tile's row coordinate equals
its group index) every table lookup in `merge` and `pad_image` is in bounds
and the index-error branch is unreachable, whereas a tile set whose smallest
row coordinate is nonzero makes `merge` fail with an error before producing
any output — not necessarily at a table lookup: the counterexample has every
lookup succeed and the failure happen at the horizontal stacking of the
empty leading group, and which stage fails depends on whether some parsed
row coordinate reaches the group count, not on the smallest row alone. -/
theorem claim_C10_bounds {α : Type} (black : α) :
    (∀ (grouped : List (List (PImage α))),
      (∀ i, i < grouped.length → ∀ t ∈ grouped.getD i [], tileCoord t = .ok i) →
      ∃ mh mw, computeTables grouped = .ok (mh, mw) ∧
        ∀ t ∈ grouped.flatten, ∃ p, padImage black t mh mw = .ok p) ∧
    (∀ (opener : Str → PImage α) (names : List Str) (ext : Str) (rowOf : Str → Nat),
      (∀ nm ∈ names, endsWithList ext nm = true →
        coordYName ext nm = .ok (rowOf nm) ∧ 1 ≤ rowOf nm) →
      ∃ e, mergeFromNames black opener names ext = .error e) := by
  constructor
  · intro grouped hcoord
    have hidx : ∀ t ∈ grouped.flatten, ∃ i g, grouped[i]? = some g ∧ t ∈ g ∧
        tileCoord t = .ok i := by
      intro t ht
      obtain ⟨g, hg, htg⟩ := List.mem_flatten.mp ht
      obtain ⟨i, hgi⟩ := get?_of_mem grouped g hg
      have hlt : i < grouped.length := get?_some_lt grouped i g hgi
      refine ⟨i, g, hgi, htg, ?_⟩
      have h2 := hcoord i hlt
      rw [getD_eq_of_get? grouped i [] g hgi] at h2
      exact h2 t htg
    have hcf : ∀ t ∈ grouped.flatten,
        tileCoord t = .ok ((fun z => ((tileCoord z).toOption).getD 0) t) := by
      intro t ht
      obtain ⟨i, g, _, _, hco⟩ := hidx t ht
      show tileCoord t = .ok (((tileCoord t).toOption).getD 0)
      rw [hco]
      rfl
    have hbnd : ∀ t ∈ grouped.flatten,
        (fun z => ((tileCoord z).toOption).getD 0) t < grouped.length := by
      intro t ht
      obtain ⟨i, g, hgi, _, hco⟩ := hidx t ht
      show ((tileCoord t).toOption).getD 0 < grouped.length
      rw [hco]
      exact get?_some_lt grouped i g hgi
    obtain ⟨mh, mw, hct, hlh, hlw, hhk, hwi⟩ :=
      computeTablesChar (fun z => ((tileCoord z).toOption).getD 0) grouped hcf hbnd
    refine ⟨mh, mw, hct, ?_⟩
    intro t ht
    obtain ⟨i, g, hgi, htg, hco⟩ := hidx t ht
    have hlt : i < grouped.length := get?_some_lt grouped i g hgi
    obtain ⟨vh, hvh⟩ := getElem?_lt_isSomeG mh i (by rw [hlh]; exact hlt)
    obtain ⟨vw, hvw⟩ := getElem?_lt_isSomeG mw i (by rw [hlw]; exact hlt)
    have htrow : t ∈ tilesOfRow (fun z => ((tileCoord z).toOption).getD 0) i grouped.flatten := by
      rw [tilesOfRow, List.mem_filter]
      refine ⟨ht, ?_⟩
      show ((((tileCoord t).toOption).getD 0 : Nat) == i) = true
      rw [hco]
      simp [Except.toOption]
    have hvh_ge : t.height ≤ vh := by
      have h2 := hhk i
      rw [hvh] at h2
      simp at h2
      rw [h2]
      exact natMaxL_ge_of_mem t.height _ (List.mem_map_of_mem PImage.height htrow)
    have hvw_ge : t.width ≤ vw := by
      have h2 := hwi i hlt
      rw [hvw, getD_eq_of_get? grouped i [] g hgi] at h2
      simp at h2
      rw [h2]
      exact natMaxL_ge_of_mem t.width _ (List.mem_map_of_mem PImage.width htg)
    exact ⟨_, padImage_ok_eq black t mh mw i vh vw hco hvh hvw hvh_ge hvw_ge⟩
  · intro opener names ext rowOf h
    cases hgrp : groupImages names ext with
    | error e =>
      refine ⟨e, ?_⟩
      rw [mergeFromNames]
      show (groupImages names ext).bind _ = _
      rw [hgrp]
      rfl
    | ok gs =>
      have hfold2 : ∃ st2, (natsorted names).foldlM (gStep ext) (0, 0, [[]]) = .ok st2 ∧
          st2.2.2 = gs := by
        revert hgrp
        cases hf : (natsorted names).foldlM (gStep ext) (0, 0, [[]]) with
        | error e =>
          intro hgrp
          rw [groupImages] at hgrp
          revert hgrp
          show (((natsorted names).foldlM (gStep ext) (0, 0, [[]])).bind _ = _) → _
          rw [hf]
          intro hgrp
          cases hgrp
        | ok st2 =>
          intro hgrp
          rw [groupImages] at hgrp
          revert hgrp
          show (((natsorted names).foldlM (gStep ext) (0, 0, [[]])).bind _ = _) → _
          rw [hf]
          intro hgrp
          cases hgrp
          exact ⟨st2, rfl, rfl⟩
      obtain ⟨st2, hf, hval⟩ := hfold2
      have hprop := gfold_headEmpty ext rowOf (natsorted names) 0 0 [[]] st2
        (fun x hx hex => h x (mem_natsorted x names hx) hex)
        (fun _ => ⟨rfl, rfl⟩) (by simp) rfl hf
      rw [hval] at hprop
      obtain ⟨hhead, hne⟩ := hprop
      cases gs with
      | nil => exact absurd rfl hne
      | cons g0 rest =>
        have hg0 : g0 = [] := hhead
        subst hg0
        cases hctres : computeTables (([] :: rest).map (fun g => g.map opener)) with
        | error e =>
          refine ⟨e, ?_⟩
          rw [mergeFromNames]
          show (groupImages names ext).bind _ = _
          rw [hgrp]
          show mergeP black _ = _
          rw [mergeP, hctres]
          rfl
        | ok tabs =>
          obtain ⟨mh2, mw2⟩ := tabs
          refine ⟨"ValueError: need at least one array to concatenate", ?_⟩
          rw [mergeFromNames]
          show (groupImages names ext).bind _ = _
          rw [hgrp]
          show mergeP black _ = _
          rw [mergeP, hctres]
          show (stripsOf black (([] :: rest).map (fun g => g.map opener)) mh2 mw2).bind
            (fun strips => vstackI strips)
            = Except.error "ValueError: need at least one array to concatenate"
          have hso : stripsOf black (([] :: rest).map (fun g => g.map opener)) mh2 mw2
              = .error "ValueError: need at least one array to concatenate" := by
            show ((([] : List Str).map opener :: rest.map (fun g => g.map opener)).mapM
              (stripFor black mh2 mw2)) = _
            rw [List.mapM_cons]
            rfl
          rw [hso]
          rfl

/-- Witness for C10: the contiguous uniform grid has all lookups in bounds,
and the min-row-1 tile set makes `merge` fail with an error. -/
theorem claim_C10_bounds_witness :
    (∀ i, i < uniGrouped.length → ∀ t ∈ uniGrouped.getD i [], tileCoord t = .ok i) ∧
    (∀ nm ∈ rowsOneNames, endsWithList ("png").data nm = true →
      coordYName ("png").data nm = .ok (rowByName nm) ∧ 1 ≤ rowByName nm) ∧
    (∃ mh mw, computeTables uniGrouped = .ok (mh, mw) ∧
      ∀ t ∈ uniGrouped.flatten, ∃ p, padImage (0 : Nat) t mh mw = .ok p) ∧
    (∃ e, mergeFromNames (0 : Nat) rowsOneOpener rowsOneNames ("png").data = .error e) :=
  ⟨by decide, by decide,
    (claim_C10_bounds (0 : Nat)).1 uniGrouped (by decide),
    (claim_C10_bounds (0 : Nat)).2 rowsOneOpener rowsOneNames ("png").data rowByName (by decide)⟩

/-! Claim C7: output-name derivation. -/

theorem alpha_ne_us (ch : Char) (h : ch.isAlpha = true) : ch ≠ '_' := by
  intro he
  rw [he] at h
  exact absurd h (by decide)

theorem alpha_ne_dot (ch : Char) (h : ch.isAlpha = true) : ch ≠ '.' := by
  intro he
  rw [he] at h
  exact absurd h (by decide)

theorem alpha_ne_slash (ch : Char) (h : ch.isAlpha = true) : ch ≠ '/' := by
  intro he
  rw [he] at h
  exact absurd h (by decide)

theorem digit_ne_us (ch : Char) (h : ch.isDigit = true) : ch ≠ '_' := by
  intro he
  rw [he] at h
  exact absurd h (by decide)

theorem digit_ne_dot (ch : Char) (h : ch.isDigit = true) : ch ≠ '.' := by
  intro he
  rw [he] at h
  exact absurd h (by decide)

theorem digit_ne_slash (ch : Char) (h : ch.isDigit = true) : ch ≠ '/' := by
  intro he
  rw [he] at h
  exact absurd h (by decide)

theorem splitOnChar_no_sep (sep : Char) (s : Str) (h : ∀ ch ∈ s, ch ≠ sep) :
    splitOnChar sep s = [s] := by
  induction s with
  | nil => rfl
  | cons c s ih =>
    rw [splitOnChar, if_neg (h c (by simp)), ih (fun z hz => h z (List.mem_cons_of_mem c hz))]

theorem splitOnChar_append_sep (sep : Char) (s1 s2 : Str) (h : ∀ ch ∈ s1, ch ≠ sep) :
    splitOnChar sep (s1 ++ sep :: s2) = s1 :: splitOnChar sep s2 := by
  induction s1 with
  | nil =>
    show splitOnChar sep (sep :: s2) = _
    rw [splitOnChar, if_pos rfl]
  | cons c s1 ih =>
    show splitOnChar sep (c :: (s1 ++ sep :: s2)) = _
    rw [splitOnChar, if_neg (h c (by simp)), ih (fun z hz => h z (List.mem_cons_of_mem c hz))]

theorem takeWhileDigitsRun (r : Str) (x : Char) (t : Str)
    (hr : ∀ ch ∈ r, ch.isDigit = true) (hx : x.isDigit = false) :
    ((r ++ x :: t).takeWhile Char.isDigit) = r := by
  induction r with
  | nil =>
    show ((x :: t).takeWhile Char.isDigit) = []
    simp [List.takeWhile_cons, hx]
  | cons c r ih =>
    show ((c :: (r ++ x :: t)).takeWhile Char.isDigit) = _
    simp [List.takeWhile_cons, hr c (by simp),
      ih (fun z hz => hr z (List.mem_cons_of_mem c hz))]

theorem isPrefixList_self_append (p t : Str) : isPrefixList p (p ++ t) = true := by
  induction p with
  | nil => rfl
  | cons c p ih => simp [isPrefixList, ih]

theorem isPrefixList_cons_false (ph : Char) (ps : Str) (c : Char) (s : Str) (h : c ≠ ph) :
    isPrefixList (ph :: ps) (c :: s) = false := by
  show (ph == c && isPrefixList ps s) = false
  have hbe : (ph == c) = false := by
    cases hb : ph == c
    · rfl
    · exact absurd (eq_of_beq hb).symm h
  rw [hbe]
  rfl

theorem matchLen_none_of_ne (ext : Str) (c : Char) (s : Str) (h : c ≠ '_') :
    matchLen ext (c :: s) = none := by
  rw [matchLen, if_neg h]

theorem findallF_nil (ext : Str) (fuel : Nat) : findallF ext fuel [] = [] := by
  cases fuel <;> rfl

theorem replaceAllF_nil (pat rep : Str) (fuel : Nat) : replaceAllF pat rep fuel [] = [] := by
  cases fuel <;> rfl

theorem tryDigits_exact (ext c : Str) (hc1 : c ≠ []) :
    tryDigitsDotExt ext (c ++ '.' :: ext) c.length = some (c.length + 1 + ext.length) := by
  cases c with
  | nil => exact absurd rfl hc1
  | cons c0 ct =>
    show tryDigitsDotExt ext ((c0 :: ct) ++ '.' :: ext) (ct.length + 1) = _
    rw [tryDigitsDotExt, dropLenAppend (c0 :: ct) ('.' :: ext) (ct.length + 1) (by simp)]
    show (if isPrefixList ext ext = true then _ else _ : Option Nat) = _
    rw [if_pos (by simpa using isPrefixList_self_append ext [])]
    simp

theorem matchLen_suffix (ext r c : Str) (hr1 : r ≠ []) (hr2 : ∀ ch ∈ r, ch.isDigit = true)
    (hc1 : c ≠ []) (hc2 : ∀ ch ∈ c, ch.isDigit = true) :
    matchLen ext ('_' :: (r ++ '_' :: (c ++ '.' :: ext)))
      = some (1 + r.length + 1 + (c.length + 1 + ext.length)) := by
  rw [matchLen, if_pos rfl,
    takeWhileDigitsRun r '_' (c ++ '.' :: ext) hr2 (by decide)]
  rw [if_neg (by simp [hr1])]
  rw [dropLenAppend r ('_' :: (c ++ '.' :: ext)) r.length rfl]
  show (if ('_' : Char) = '_' then _ else _ : Option Nat) = _
  rw [if_pos rfl,
    takeWhileDigitsRun c '.' ext hc2 (by decide),
    tryDigits_exact ext c hc1]

theorem findallF_skip (ext : Str) (pre : Str) (hpre : ∀ ch ∈ pre, ch ≠ '_') :
    ∀ (fuel : Nat) (s : Str), findallF ext (pre.length + fuel) (pre ++ s) = findallF ext fuel s := by
  induction pre with
  | nil =>
    intro fuel s
    simp
  | cons ch pre ih =>
    intro fuel s
    have harith : (ch :: pre).length + fuel = (pre.length + fuel) + 1 := by
      simp
      omega
    rw [harith]
    show findallF ext ((pre.length + fuel) + 1) (ch :: (pre ++ s)) = _
    rw [findallF, matchLen_none_of_ne ext ch _ (hpre ch (by simp))]
    exact ih (fun z hz => hpre z (List.mem_cons_of_mem ch hz)) fuel s

theorem findall_exact (base r c ext : Str) (hbase : ∀ ch ∈ base, ch ≠ '_')
    (hr1 : r ≠ []) (hr2 : ∀ ch ∈ r, ch.isDigit = true)
    (hc1 : c ≠ []) (hc2 : ∀ ch ∈ c, ch.isDigit = true) :
    findall ext (base ++ '_' :: (r ++ '_' :: (c ++ '.' :: ext)))
      = ['_' :: (r ++ '_' :: (c ++ '.' :: ext))] := by
  rw [findall]
  have hlen : (base ++ '_' :: (r ++ '_' :: (c ++ '.' :: ext))).length
      = base.length + ('_' :: (r ++ '_' :: (c ++ '.' :: ext))).length := by
    simp
  rw [hlen, findallF_skip ext base hbase]
  show findallF ext ((r ++ '_' :: (c ++ '.' :: ext)).length + 1)
    ('_' :: (r ++ '_' :: (c ++ '.' :: ext))) = _
  rw [findallF, matchLen_suffix ext r c hr1 hr2 hc1 hc2]
  have hlen2 : 1 + r.length + 1 + (c.length + 1 + ext.length)
      = ('_' :: (r ++ '_' :: (c ++ '.' :: ext))).length := by
    simp
    omega
  show List.take (1 + r.length + 1 + (c.length + 1 + ext.length))
      ('_' :: (r ++ '_' :: (c ++ '.' :: ext)))
    :: findallF ext ((r ++ '_' :: (c ++ '.' :: ext)).length)
      (List.drop (1 + r.length + 1 + (c.length + 1 + ext.length))
        ('_' :: (r ++ '_' :: (c ++ '.' :: ext)))) = _
  rw [hlen2, List.take_length, List.drop_length, findallF_nil]

theorem replaceAllF_skip (pt rep : Str) (pre : Str) (hpre : ∀ ch ∈ pre, ch ≠ '_') :
    ∀ (fuel : Nat) (s : Str),
      replaceAllF ('_' :: pt) rep (pre.length + fuel) (pre ++ s)
        = pre ++ replaceAllF ('_' :: pt) rep fuel s := by
  induction pre with
  | nil =>
    intro fuel s
    simp
  | cons ch pre ih =>
    intro fuel s
    have harith : (ch :: pre).length + fuel = (pre.length + fuel) + 1 := by
      simp
      omega
    rw [harith]
    show replaceAllF ('_' :: pt) rep ((pre.length + fuel) + 1) (ch :: (pre ++ s)) = _
    rw [replaceAllF, isPrefixList_cons_false '_' pt ch _ (hpre ch (by simp))]
    show ch :: replaceAllF ('_' :: pt) rep (pre.length + fuel) (pre ++ s) = _
    rw [ih (fun z hz => hpre z (List.mem_cons_of_mem ch hz)) fuel s]
    rfl

theorem replaceAll_exact (base pt : Str) (hbase : ∀ ch ∈ base, ch ≠ '_') :
    replaceAll ('_' :: pt) [] (base ++ '_' :: pt) = base := by
  rw [replaceAll]
  have hlen : (base ++ '_' :: pt).length = base.length + ('_' :: pt).length := by
    simp
  rw [hlen, replaceAllF_skip pt [] base hbase (('_' :: pt).length) ('_' :: pt)]
  show base ++ replaceAllF ('_' :: pt) [] (pt.length + 1) ('_' :: pt) = base
  rw [replaceAllF]
  have hp : isPrefixList ('_' :: pt) ('_' :: pt) = true := by
    simpa using isPrefixList_self_append ('_' :: pt) []
  rw [hp]
  show base ++ ([] ++ replaceAllF ('_' :: pt) [] pt.length (('_' :: pt).drop ('_' :: pt).length)) = base
  rw [List.drop_length, replaceAllF_nil]
  simp

/-- C7: the derived output name strips the trailing `_<row>_<col>.<ext>`
suffix from the first tile's filename and appends `_merged.<ext>`; in
particular a tile set whose first tile is `scanA_0_0.jpg` produces the output
name `scanA_merged.jpg`. -/
theorem claim_C7_output_name :
    (∀ (base r c ext : Str) (rest : List Str),
      (∀ ch ∈ base, ch.isAlpha = true) →
      r ≠ [] → (∀ ch ∈ r, ch.isDigit = true) →
      c ≠ [] → (∀ ch ∈ c, ch.isDigit = true) →
      ext ≠ [] → (∀ ch ∈ ext, ch.isAlpha = true) →
      deriveName ((base ++ '_' :: (r ++ '_' :: (c ++ '.' :: ext))) :: rest)
        = .ok (base ++ ("_merged.").data ++ ext)) ∧
    deriveName ["scanA_0_0.jpg".data] = .ok ("scanA_merged.jpg".data) := by
  constructor
  · intro base r c ext rest hb hr1 hr2 hc1 hc2 he1 he2
    have hb_us : ∀ ch ∈ base, ch ≠ '_' := fun ch h => alpha_ne_us ch (hb ch h)
    have hb_dot : ∀ ch ∈ base, ch ≠ '.' := fun ch h => alpha_ne_dot ch (hb ch h)
    have hb_sl : ∀ ch ∈ base, ch ≠ '/' := fun ch h => alpha_ne_slash ch (hb ch h)
    have he_dot : ∀ ch ∈ ext, ch ≠ '.' := fun ch h => alpha_ne_dot ch (he2 ch h)
    have he_sl : ∀ ch ∈ ext, ch ≠ '/' := fun ch h => alpha_ne_slash ch (he2 ch h)
    have hr_dot : ∀ ch ∈ r, ch ≠ '.' := fun ch h => digit_ne_dot ch (hr2 ch h)
    have hr_sl : ∀ ch ∈ r, ch ≠ '/' := fun ch h => digit_ne_slash ch (hr2 ch h)
    have hc_dot : ∀ ch ∈ c, ch ≠ '.' := fun ch h => digit_ne_dot ch (hc2 ch h)
    have hc_sl : ∀ ch ∈ c, ch ≠ '/' := fun ch h => digit_ne_slash ch (hc2 ch h)
    have hrepr : base ++ '_' :: (r ++ '_' :: (c ++ '.' :: ext))
        = (base ++ '_' :: (r ++ '_' :: c)) ++ '.' :: ext := by
      simp
    have hpredot : ∀ ch ∈ base ++ '_' :: (r ++ '_' :: c), ch ≠ '.' := by
      rw [List.forall_mem_append]
      refine ⟨hb_dot, ?_⟩
      rw [List.forall_mem_cons]
      refine ⟨by decide, ?_⟩
      rw [List.forall_mem_append]
      refine ⟨hr_dot, ?_⟩
      rw [List.forall_mem_cons]
      exact ⟨by decide, hc_dot⟩
    have hsplit : splitOnChar '.' (base ++ '_' :: (r ++ '_' :: (c ++ '.' :: ext)))
        = [base ++ '_' :: (r ++ '_' :: c), ext] := by
      rw [hrepr, splitOnChar_append_sep '.' _ ext hpredot, splitOnChar_no_sep '.' ext he_dot]
    have hext : (splitOnChar '.' (base ++ '_' :: (r ++ '_' :: (c ++ '.' :: ext)))).getLastD []
        = ext := by
      rw [hsplit]
      simp [List.getLastD]
    have hnosl : ∀ ch ∈ base ++ '_' :: (r ++ '_' :: (c ++ '.' :: ext)), ch ≠ '/' := by
      rw [List.forall_mem_append]
      refine ⟨hb_sl, ?_⟩
      rw [List.forall_mem_cons]
      refine ⟨by decide, ?_⟩
      rw [List.forall_mem_append]
      refine ⟨hr_sl, ?_⟩
      rw [List.forall_mem_cons]
      refine ⟨by decide, ?_⟩
      rw [List.forall_mem_append]
      refine ⟨hc_sl, ?_⟩
      rw [List.forall_mem_cons]
      exact ⟨by decide, he_sl⟩
    have hbn : basenameStr (base ++ '_' :: (r ++ '_' :: (c ++ '.' :: ext)))
        = base ++ '_' :: (r ++ '_' :: (c ++ '.' :: ext)) := by
      rw [basenameStr, splitOnChar_no_sep '/' _ hnosl]
      rfl
    have hfa := findall_exact base r c ext hb_us hr1 hr2 hc1 hc2
    have hra := replaceAll_exact base (r ++ '_' :: (c ++ '.' :: ext)) hb_us
    rw [deriveName, hext, hfa]
    show Except.ok (replaceAll ('_' :: (r ++ '_' :: (c ++ '.' :: ext))) []
      (basenameStr (base ++ '_' :: (r ++ '_' :: (c ++ '.' :: ext))))
      ++ ("_merged.").data ++ ext) = _
    rw [hbn, hra]
  · decide

/-- Witness for C7: the first tile `scanA_0_0.jpg` produces the output name
`scanA_merged.jpg`. -/
theorem claim_C7_output_name_witness :
    deriveName (("scanA".data ++ '_' :: ("0".data ++ '_' :: ("0".data ++ '.' :: "jpg".data))) :: [])
      = .ok ("scanA".data ++ ("_merged.").data ++ "jpg".data) :=
  claim_C7_output_name.1 ("scanA").data ("0").data ("0").data ("jpg").data []
    (by decide) (by decide) (by decide) (by decide) (by decide) (by decide) (by decide)
